import Mathlib

/-!
# Verification of the Buscador-JSON / Hydra search engine

A shallow embedding, in Lean 4, of the search/scoring engine, the text
normalizer, the synonym expansion, the de-duplication pass, the LRU cache,
the catalog source loader and the client data store of the repository,
together with theorems settling the specification claims about them.

Modelling conventions used throughout:
* JavaScript strings are modelled as `List Char` (`Js.Str`); all string
  operations (substring search, splitting, trimming, regex-like scans) are
  re-implemented as executable structural recursions mirroring the source.
* JavaScript numbers are modelled as exact rationals `ℚ`; `NaN` is modelled
  by `Option ℚ` (`none` = NaN) where the source can produce it.  For the
  specific constants used by the engine (tier scores, `0.7`, `1024` powers,
  the `0.6`/`0.4` ratio thresholds) the exact-rational semantics agrees with
  IEEE-754 double semantics on all values the engine produces.
* `Date.now()`, `new Date(s).getTime()` and `String.prototype.localeCompare`
  are host-environment functions; they are passed to the embedded code as
  explicit parameters (`now : Int`, `parseDate : Str → Option Int`,
  `localeCmp : Str → Str → Int`).
* `toLowerCase`, Unicode NFD decomposition and the Unicode letter category
  are modelled by executable tables covering ASCII, the Latin accented
  letters and the Cyrillic alphabet (the character repertoire the
  application's data and its stopword/synonym tables actually use).
-/

namespace Js

/-- JavaScript strings are sequences of characters. -/
abbrev Str := List Char

/-- Helper turning a Lean string literal into the character-list model. -/
def str (s : String) : Str := s.data

/-- The JavaScript `\s` / `trim` whitespace class (ASCII part plus the
common Unicode space characters). -/
def jsSpace (c : Char) : Bool :=
  c = ' ' || c = '\t' || c = '\n' || c = '\r' ||
  c = Char.ofNat 0x0b || c = Char.ofNat 0x0c ||
  c = Char.ofNat 0xa0 || c = Char.ofNat 0x2028 || c = Char.ofNat 0x2029 ||
  c = Char.ofNat 0xfeff || c = Char.ofNat 0x3000

/-- The JavaScript regex `\w` class: `[A-Za-z0-9_]`. -/
def isWordChar (c : Char) : Bool := c.isAlpha || c.isDigit || c = '_'

/-- `hay.includes(needle)`: substring containment. -/
def containsSub (needle : Str) : Str → Bool
  | [] => needle.isEmpty
  | c :: t => needle.isPrefixOf (c :: t) || containsSub needle t

/-- `String.prototype.trim`, start side: drop leading whitespace. -/
def trimStart (l : Str) : Str := l.dropWhile jsSpace

/-- `String.prototype.trim`: drop leading and trailing whitespace. -/
def jsTrim (l : Str) : Str := ((trimStart l).reverse.dropWhile jsSpace).reverse

/-- Replace every maximal run of characters satisfying `p` by the single
character `rep` (the effect of `.replace(/X+/g, rep)` for a character
class `X`).  `inRun` records whether the previous character was in a run. -/
def collapseRunsGo (p : Char → Bool) (rep : Char) : Bool → Str → Str
  | _, [] => []
  | inRun, c :: t =>
    if p c then
      if inRun then collapseRunsGo p rep true t
      else rep :: collapseRunsGo p rep true t
    else c :: collapseRunsGo p rep false t

/-- `.replace(/X+/g, rep)` for a character class `X` given by `p`. -/
def collapseRuns (p : Char → Bool) (rep : Char) (l : Str) : Str :=
  collapseRunsGo p rep false l

/-- Worker for `splitWs`; `acc` is the current segment, reversed, and
`inWs` records whether we are inside a whitespace run. -/
def splitWsGo (acc : Str) (inWs : Bool) : Str → List Str
  | [] => [acc.reverse]
  | c :: t =>
    if jsSpace c then
      if inWs then splitWsGo acc true t
      else acc.reverse :: splitWsGo [] true t
    else splitWsGo (c :: acc) false t

/-- `s.split(/\s+/)`: split on maximal whitespace runs; like JavaScript it
produces an empty leading (trailing) segment when the string starts
(ends) with whitespace. -/
def splitWs (l : Str) : List Str := splitWsGo [] false l

/-- Worker for `splitOnChar`. -/
def splitOnCharGo (sep : Char) (acc : Str) : Str → List Str
  | [] => [acc.reverse]
  | c :: t =>
    if c = sep then acc.reverse :: splitOnCharGo sep [] t
    else splitOnCharGo sep (c :: acc) t

/-- `s.split(sep)` for a one-character separator string. -/
def splitOnChar (sep : Char) (l : Str) : List Str := splitOnCharGo sep [] l

/-- `s.replace(pat, "")` for a plain-string `pat`: remove the first
occurrence of `pat`, if any. -/
def replaceFirst (pat : Str) : Str → Str
  | [] => []
  | c :: t => if pat.isPrefixOf (c :: t) then (c :: t).drop pat.length
              else c :: replaceFirst pat t

/-- No two adjacent characters of `l` both satisfy `p` (the shape of a
string whose `p`-runs have been collapsed). -/
def sepOk (p : Char → Bool) (l : Str) : Prop :=
  List.Chain' (fun x y => ¬(p x = true ∧ p y = true)) l

end Js

namespace Utils

/-! ### `utils.ts` — `normalizeText`

The normalizer pipeline of `normalizeText` (lower-case, NFD, strip
combining marks U+0300–U+036F, fold `[_-]+` runs to a space, delete
characters outside `\p{L}\p{N}\s`, collapse whitespace, trim), with the
Unicode-dependent character functions (`toLowerCase`, NFD decomposition,
the letter category) modelled by executable tables over the character
repertoire the application uses (ASCII, Latin accented letters, Cyrillic).
-/

open Js

/-- First-match association-list lookup (models JS object property access;
keys in the tables below are unique). -/
def tableLookup {α : Type} (c : Char) : List (Char × α) → Option α
  | [] => none
  | p :: t => if c = p.1 then some p.2 else tableLookup c t

/-- `String.prototype.toLowerCase`, per character: ASCII letters, Latin
accented letters and the Cyrillic alphabet; identity elsewhere. -/
def lowerTable : List (Char × Char) :=
  [('A', 'a'), ('B', 'b'), ('C', 'c'), ('D', 'd'), ('E', 'e'), ('F', 'f'),
   ('G', 'g'), ('H', 'h'), ('I', 'i'), ('J', 'j'), ('K', 'k'), ('L', 'l'),
   ('M', 'm'), ('N', 'n'), ('O', 'o'), ('P', 'p'), ('Q', 'q'), ('R', 'r'),
   ('S', 's'), ('T', 't'), ('U', 'u'), ('V', 'v'), ('W', 'w'), ('X', 'x'),
   ('Y', 'y'), ('Z', 'z'),
   ('À', 'à'), ('Á', 'á'), ('Â', 'â'), ('Ã', 'ã'), ('Ä', 'ä'), ('Å', 'å'),
   ('Ç', 'ç'), ('È', 'è'), ('É', 'é'), ('Ê', 'ê'), ('Ë', 'ë'),
   ('Ì', 'ì'), ('Í', 'í'), ('Î', 'î'), ('Ï', 'ï'), ('Ñ', 'ñ'),
   ('Ò', 'ò'), ('Ó', 'ó'), ('Ô', 'ô'), ('Õ', 'õ'), ('Ö', 'ö'),
   ('Ù', 'ù'), ('Ú', 'ú'), ('Û', 'û'), ('Ü', 'ü'), ('Ý', 'ý'),
   ('А', 'а'), ('Б', 'б'), ('В', 'в'), ('Г', 'г'), ('Д', 'д'), ('Е', 'е'),
   ('Ж', 'ж'), ('З', 'з'), ('И', 'и'), ('Й', 'й'), ('К', 'к'), ('Л', 'л'),
   ('М', 'м'), ('Н', 'н'), ('О', 'о'), ('П', 'п'), ('Р', 'р'), ('С', 'с'),
   ('Т', 'т'), ('У', 'у'), ('Ф', 'ф'), ('Х', 'х'), ('Ц', 'ц'), ('Ч', 'ч'),
   ('Ш', 'ш'), ('Щ', 'щ'), ('Ъ', 'ъ'), ('Ы', 'ы'), ('Ь', 'ь'), ('Э', 'э'),
   ('Ю', 'ю'), ('Я', 'я'), ('Ё', 'ё')]

/-- Per-character `toLowerCase`. -/
def jsToLower (c : Char) : Char := (tableLookup c lowerTable).getD c

/-- Canonical (NFD) decomposition of the precomposed lowercase letters the
application's data uses: base letter plus combining mark.  (Uppercase
letters are lowered before `normalize("NFD")` runs in the pipeline.) -/
def nfdTable : List (Char × List Char) :=
  [('à', ['a', Char.ofNat 0x300]), ('á', ['a', Char.ofNat 0x301]),
   ('â', ['a', Char.ofNat 0x302]), ('ã', ['a', Char.ofNat 0x303]),
   ('ä', ['a', Char.ofNat 0x308]), ('å', ['a', Char.ofNat 0x30a]),
   ('ç', ['c', Char.ofNat 0x327]),
   ('è', ['e', Char.ofNat 0x300]), ('é', ['e', Char.ofNat 0x301]),
   ('ê', ['e', Char.ofNat 0x302]), ('ë', ['e', Char.ofNat 0x308]),
   ('ì', ['i', Char.ofNat 0x300]), ('í', ['i', Char.ofNat 0x301]),
   ('î', ['i', Char.ofNat 0x302]), ('ï', ['i', Char.ofNat 0x308]),
   ('ñ', ['n', Char.ofNat 0x303]),
   ('ò', ['o', Char.ofNat 0x300]), ('ó', ['o', Char.ofNat 0x301]),
   ('ô', ['o', Char.ofNat 0x302]), ('õ', ['o', Char.ofNat 0x303]),
   ('ö', ['o', Char.ofNat 0x308]),
   ('ù', ['u', Char.ofNat 0x300]), ('ú', ['u', Char.ofNat 0x301]),
   ('û', ['u', Char.ofNat 0x302]), ('ü', ['u', Char.ofNat 0x308]),
   ('ý', ['y', Char.ofNat 0x301]),
   ('ё', ['е', Char.ofNat 0x308])]

/-- Per-character NFD decomposition (`[c]` for characters that are already
canonical atoms). -/
def nfdChar (c : Char) : Str := (tableLookup c nfdTable).getD [c]

/-- `String.prototype.normalize("NFD")`. -/
def nfdStr : Str → Str
  | [] => []
  | c :: t => nfdChar c ++ nfdStr t

/-- The combining diacritical marks range `[̀-ͯ]`. -/
def isCombining (c : Char) : Bool := decide (0x300 ≤ c.toNat ∧ c.toNat ≤ 0x36f)

/-- The regex class `[_-]`. -/
def hyphChar (c : Char) : Bool := c = '_' || c = '-'

/-- The Unicode letter category `\p{L}`, over the modelled repertoire:
ASCII letters, Latin accented letters (both cases) and Cyrillic. -/
def uLetter (c : Char) : Bool :=
  c.isAlpha || decide (0x410 ≤ c.toNat ∧ c.toNat ≤ 0x44f) || c = 'ё' || c = 'Ё' ||
  (str "àáâãäåçèéêëìíîïñòóôõöùúûüýÀÁÂÃÄÅÇÈÉÊËÌÍÎÏÑÒÓÔÕÖÙÚÛÜÝ").contains c

/-- The character class kept by stage 5 of the pipeline,
`[\p{L}\p{N}\s]` (`\p{N}` modelled as the ASCII digits). -/
def keepChar (c : Char) : Bool := uLetter c || c.isDigit || jsSpace c

/--
`normalizeText(text?: string)` from `utils.ts`:

1. lower-case; 2. `normalize("NFD")`; 3. strip `[̀-ͯ]`;
4. `[_-]+` → single space; 5. delete `[^\p{L}\p{N}\s]`;
6. collapse `\s+` to one space; 7. trim.  `none` models `undefined`;
a falsy input (absent or empty) short-circuits to the empty string.
-/
def normalizeText (text : Option Str) : Str :=
  match text with
  | none => []
  | some s =>
    if s = [] then []
    else
      jsTrim (collapseRuns jsSpace ' '
        ((collapseRuns hyphChar ' '
          ((nfdStr (s.map jsToLower)).filter (fun c => !isCombining c))).filter
            keepChar))

/-- `normalizeText` applied to a present string value. -/
def normalizeStr (s : Str) : Str := normalizeText (some s)

end Utils

namespace TypesMod

/-! ### `types.ts` — synonyms, exact phrases, recency bonus -/

open Js Utils

/-- Builds one synonym-table entry from string literals. -/
def synEntry (k : String) (v : List String) : Str × List Str :=
  (k.data, v.map String.data)

/-- The static bidirectional synonym table `SYNONYMS_MAP`. -/
def SYNONYMS_MAP : List (Str × List Str) :=
  [synEntry "rpg" ["role-playing", "roleplaying", "jrpg", "crpg", "action-rpg"],
   synEntry "skyrim" ["elder scrolls", "tes", "bethesda", "scrolls"],
   synEntry "fallout" ["vault", "bethesda", "power armor", "vault boy"],
   synEntry "witcher" ["geralt", "cdpr", "cd projekt", "monster hunter"],
   synEntry "dragon" ["dragonborn", "dragons", "dungeons"],
   synEntry "elden" ["ring", "fromsoft", "souls"],
   synEntry "souls" ["soulslike", "souls-like", "dark souls", "elden ring"],
   synEntry "gta" ["grand theft auto", "rockstar", "sandbox crime"],
   synEntry "sandbox" ["open world", "freeform", "exploration"],
   synEntry "minecraft" ["blocks", "crafting", "building", "voxel"],
   synEntry "wow" ["world of warcraft", "mmorpg", "blizzard", "warcraft"],
   synEntry "game" ["jogo", "gaming", "video game"],
   synEntry "jogo" ["game", "gaming"],
   synEntry "fps" ["first person", "shooter", "action"],
   synEntry "rts" ["strategy", "real-time", "command conquer"],
   synEntry "simulation" ["sim", "simulator", "simulated"],
   synEntry "adventure" ["explorer", "exploration", "quest"],
   synEntry "action" ["combat", "fighting", "battle"],
   synEntry "puzzle" ["logic", "brain teaser", "riddle"],
   synEntry "horror" ["terror", "scary", "survival horror"],
   synEntry "survival" ["survival horror", "crafting", "resource management"],
   synEntry "platformer" ["platform", "side-scroller", "jumping"],
   synEntry "racing" ["race", "car", "driving", "motorsport"],
   synEntry "sports" ["athletic", "competition", "esports"],
   synEntry "fighting" ["combat", "versus", "brawler", "fighter"],
   synEntry "mod" ["modification", "mods", "modding", "modificação", "modificacoes"],
   synEntry "patch" ["update", "fixes", "fixed", "hotfix", "correcao"],
   synEntry "dlc" ["expansion", "addon", "content", "pack", "season pass"],
   synEntry "skin" ["cosmetic", "outfit", "appearance", "texture pack"],
   synEntry "shader" ["graphics mod", "lighting", "visual enhancement"],
   synEntry "texture" ["textura", "textures", "texturas", "graphics", "visual"],
   synEntry "armor" ["equipment", "gear", "outfit", "suit"],
   synEntry "weapon" ["sword", "gun", "rifle", "tool", "item"],
   synEntry "magic" ["spell", "sorcery", "witchcraft", "enchantment"],
   synEntry "quest" ["mission", "objective", "task", "adventure"],
   synEntry "fix" ["fixed", "fixing", "repair", "repaired", "correcao", "corrigido"],
   synEntry "tool" ["utility", "utils", "utilities", "ferramenta", "toolkit"],
   synEntry "install" ["installer", "setup", "installation", "instalacao"],
   synEntry "backup" ["saved", "copy", "copies", "save data", "savedata"],
   synEntry "save" ["savedata", "savefile", "savegame", "checkpoint"],
   synEntry "launcher" ["loader", "boot", "executor"],
   synEntry "manager" ["organizer", "controller", "handler"],
   synEntry "library" ["collection", "database", "catalog"],
   synEntry "nvidia" ["geforce", "rtx", "gtx", "graphics card", "gpu"],
   synEntry "amd" ["radeon", "rx", "ryzen", "processor"],
   synEntry "intel" ["core", "processor", "cpu", "xeon"],
   synEntry "cpu" ["processor", "processador", "core", "intel", "amd", "ryzen"],
   synEntry "gpu" ["graphics", "video", "graphics card", "geforce", "radeon"],
   synEntry "ram" ["memory", "memoria", "ddr"],
   synEntry "ssd" ["solid state", "storage", "disk"],
   synEntry "hdd" ["hard drive", "disk", "mechanical"],
   synEntry "hd" ["high", "definition", "resolution", "1080p", "fullhd"],
   synEntry "4k" ["uhd", "ultra", "2160p", "8k"],
   synEntry "1080p" ["fullhd", "hd", "1920x1080"],
   synEntry "720p" ["hd ready", "720"],
   synEntry "resolution" ["quality", "definition", "graphics setting"],
   synEntry "framerate" ["frame rate", "performance", "60fps", "144fps"],
   synEntry "ultra" ["maximum", "high", "quality", "4k"],
   synEntry "high" ["quality", "settings", "ultra", "graphics"],
   synEntry "low" ["minimum", "settings", "performance", "lightweight"],
   synEntry "sound" ["audio", "som", "sound effects", "sfx"],
   synEntry "music" ["soundtrack", "musica", "ost", "score", "background music"],
   synEntry "voice" ["dialogue", "voicepack", "voice acting"],
   synEntry "subtitle" ["subtitles", "subs", "closed caption"],
   synEntry "audio" ["sound", "music", "voice", "sonoro"],
   synEntry "video" ["movie", "trailer", "cutscene", "cinema"],
   synEntry "pt" ["portuguese", "portugues", "brasil", "br", "português"],
   synEntry "en" ["english", "ingles", "us", "uk", "american", "british"],
   synEntry "es" ["spanish", "espanol", "espanha", "español"],
   synEntry "fr" ["french", "frances", "francais"],
   synEntry "de" ["german", "deutsch", "alemao"],
   synEntry "ru" ["russian", "russo", "cyrillic"],
   synEntry "ja" ["japanese", "japones", "nihongo"],
   synEntry "ch" ["chinese", "mandarin", "cantonese"],
   synEntry "ko" ["korean", "korean language"],
   synEntry "br" ["brazilian", "brasil", "portuguese"],
   synEntry "multilanguage" ["multi-language", "multilingual", "localization"],
   synEntry "pc" ["windows", "steam", "pc gaming"],
   synEntry "windows" ["pc", "win", "microsoft"],
   synEntry "linux" ["ubuntu", "debian", "proton"],
   synEntry "mac" ["osx", "macos", "apple"],
   synEntry "steam" ["valve", "platform", "pc gaming"],
   synEntry "epic" ["epic games", "launcher"],
   synEntry "gog" ["good old games", "drm-free"],
   synEntry "console" ["playstation", "xbox", "nintendo"],
   synEntry "playstation" ["ps4", "ps5", "sony"],
   synEntry "xbox" ["x360", "xone", "microsoft"],
   synEntry "switch" ["nintendo switch", "portable"],
   synEntry "bethesda" ["skyrim", "fallout", "oblivion"],
   synEntry "cdpr" ["cd projekt", "witcher", "cyberpunk"],
   synEntry "fromsoft" ["elden ring", "dark souls", "bloodborne"],
   synEntry "valve" ["steam", "half-life", "portal"],
   synEntry "blizzard" ["wow", "diablo", "starcraft"],
   synEntry "rockstar" ["gta", "red dead", "max payne"],
   synEntry "ubisoft" ["assassins creed", "far cry", "splinter cell"],
   synEntry "activision" ["call of duty", "world of warcraft"],
   synEntry "ea" ["battlefield", "fifa", "sims"],
   synEntry "2k" ["bioshock", "borderlands", "civilization"],
   synEntry "capcom" ["resident evil", "monster hunter", "devil may cry"],
   synEntry "konami" ["metal gear", "castlevania", "silent hill"],
   synEntry "square" ["final fantasy", "dragon quest", "kingdom hearts"],
   synEntry "nintendo" ["mario", "zelda", "pokemon", "switch"],
   synEntry "sony" ["playstation", "god of war", "uncharted"],
   synEntry "microsoft" ["xbox", "halo", "gears of war"],
   synEntry "complete" ["full", "entire", "100%", "all dlc"],
   synEntry "remaster" ["remake", "enhanced", "updated", "version"],
   synEntry "classic" ["old", "retro", "nostalgia", "vintage"],
   synEntry "new" ["latest", "recent", "updated", "novo"],
   synEntry "free" ["gratis", "opensource", "freeware"],
   synEntry "multiplayer" ["mp", "online", "coop", "pvp"],
   synEntry "singleplayer" ["single", "offline", "campaign"],
   synEntry "coop" ["co-op", "cooperative", "together"],
   synEntry "pvp" ["player vs player", "competitive", "multiplayer"],
   synEntry "online" ["internet", "network", "multiplayer"],
   synEntry "offline" ["local", "singleplayer", "no connection"]]

/-- JS object property lookup on the synonym table (keys are unique). -/
def mapLookup (k : Str) : List (Str × List Str) → Option (List Str)
  | [] => none
  | p :: t => if k = p.1 then some p.2 else mapLookup k t

/-- `normalizePhraseForMatching`: lower-case, trim, strip `[^\w\s]`,
collapse whitespace runs to single spaces. -/
def normalizePhraseForMatching (phrase : Str) : Str :=
  collapseRuns jsSpace ' '
    ((jsTrim (phrase.map jsToLower)).filter (fun c => isWordChar c || jsSpace c))

/-- One step of the regex scan for `"([^"]+)"` / `'([^']+)'`: given the text
after an opening quote `q`, return the (non-empty) content before the first
closing `q` and the rest of the text, when a closing quote exists. -/
def scanQuote (q : Char) (t : Str) : Option (Str × Str) :=
  let content := t.takeWhile (fun c => !(c = q))
  if content.length < t.length && !content.isEmpty then
    some (content, t.drop (content.length + 1))
  else none

/-- Left-to-right scan producing the successive matches (full match and
capture) of `/"([^"]+)"|\x27([^\x27]+)\x27/g`; `fuel` bounds the recursion by the
input length. -/
def scanMatchesGo : Nat → Str → List (Str × Str)
  | 0, _ => []
  | _, [] => []
  | fuel + 1, c :: t =>
    if c = '"' then
      match scanQuote '"' t with
      | some (content, rest) =>
        (('"' :: content) ++ ['"'], content) :: scanMatchesGo fuel rest
      | none => scanMatchesGo fuel t
    else if c = '\'' then
      match scanQuote '\'' t with
      | some (content, rest) =>
        (('\'' :: content) ++ ['\''], content) :: scanMatchesGo fuel rest
      | none => scanMatchesGo fuel t
    else scanMatchesGo fuel t

/-- All quoted-phrase matches of the query. -/
def scanMatches (l : Str) : List (Str × Str) := scanMatchesGo l.length l

/-- Result of `extractExactPhrases`. -/
structure ExtractResult where
  exactPhrases : List Str
  remainingQuery : Str
deriving DecidableEq, Repr

/-- `extractExactPhrases(query)`: collect the normalized non-empty quoted
phrases, and remove each full match (first occurrence) from the query. -/
def extractExactPhrases (query : Str) : ExtractResult :=
  let ms := scanMatches query
  let phrases := ms.filterMap fun m =>
    let n := normalizePhraseForMatching m.2
    if n.length > 0 then some n else none
  let remaining := ms.foldl (fun r m => replaceFirst m.1 r) query
  ⟨phrases, jsTrim remaining⟩

/-- `checkExactPhrases(text, phrases)`: every phrase must occur as a
substring of the normalized text, or (for multi-word phrases) all its words
must occur as substrings or word matches/word-starts. -/
def checkExactPhrases (text : Str) (phrases : List Str) : Bool :=
  if phrases.isEmpty then true
  else
    let normalizedText := normalizePhraseForMatching text
    phrases.all fun phrase =>
      containsSub phrase normalizedText ||
      (let phraseWords := (splitWs phrase).filter (fun w => w.length > 0)
       decide (phraseWords.length > 1) &&
       phraseWords.all fun word =>
         containsSub word normalizedText ||
         (splitWs normalizedText).any fun w =>
           decide (w = word) || word.isPrefixOf w)

/-- `Set.prototype.add`: append if not already present (JS `Set` keeps
insertion order). -/
def addUnique (acc : List Str) (s : Str) : List Str :=
  if acc.contains s then acc else acc ++ [s]

/-- `forEach(syn => expanded.add(syn))`. -/
def addAll (acc : List Str) (xs : List Str) : List Str := xs.foldl addUnique acc

/-- `expandSearchTermsWithSynonyms(terms)`: seed a set with the terms; for
each term add its direct synonyms, and for each table entry whose synonym
list contains the term add the key and all its synonyms. -/
def expandSearchTermsWithSynonyms (terms : List Str) : List Str :=
  let init := addAll [] terms
  terms.foldl (fun expanded term =>
    let expanded :=
      match mapLookup term SYNONYMS_MAP with
      | some directSynonyms => addAll expanded directSynonyms
      | none => expanded
    SYNONYMS_MAP.foldl (fun expanded kv =>
      if kv.2.contains term then addAll (addUnique expanded kv.1) kv.2
      else expanded) expanded) init

/-- `getRecencyBonus(uploadDate?)`: tiered bonus by age in days; the host
date parser is passed explicitly, `none` modelling an invalid date (`NaN`,
for which every comparison is false). -/
def getRecencyBonus (parseDate : Str → Option Int) (now : Int)
    (uploadDate : Str) : Nat :=
  if uploadDate = [] then 0
  else
    match parseDate uploadDate with
    | none => 0
    | some uploaded =>
      let ageInDays : Int := Int.fdiv (now - uploaded) 86400000
      if ageInDays ≤ 7 then 20
      else if ageInDays ≤ 30 then 10
      else if ageInDays ≤ 90 then 5
      else if ageInDays ≤ 365 then 2
      else 0

end TypesMod

namespace LRU

/-! ### `lru-cache.ts` — the bounded LRU cache primitive -/

/-- State of an `LRUCache`: the backing `Map` (an insertion-ordered
association list with unique keys), the capacity, and the access-order
list, least recently used first. -/
structure LRUCache (K V : Type) where
  cache : List (K × V)
  maxSize : Nat
  accessOrder : List K

variable {K V : Type} [DecidableEq K]

/-- `Map.prototype.get` / `has`. -/
def mapFind (k : K) : List (K × V) → Option V
  | [] => none
  | p :: t => if k = p.1 then some p.2 else mapFind k t

/-- `Map.prototype.set`: update an existing key in place, else append. -/
def mapSet (k : K) (v : V) : List (K × V) → List (K × V)
  | [] => [(k, v)]
  | p :: t => if k = p.1 then (k, v) :: t else p :: mapSet k v t

/-- `Map.prototype.delete`. -/
def mapErase (k : K) : List (K × V) → List (K × V)
  | [] => []
  | p :: t => if k = p.1 then t else p :: mapErase k t

/-- `new LRUCache(maxSize)`: the constructor throws (`none`) for a
non-positive capacity. -/
def create (maxSize : Nat) : Option (LRUCache K V) :=
  if maxSize ≤ 0 then none else some ⟨[], maxSize, []⟩

/-- `updateAccessOrder(key)`: remove the key from the order list and
append it at the most-recently-used end. -/
def updateAccessOrder (c : LRUCache K V) (k : K) : LRUCache K V :=
  { c with accessOrder := (c.accessOrder.filter (fun x => decide (x ≠ k))) ++ [k] }

/-- `get(key)`: `undefined` (`none`) on a miss; on a hit the key is marked
most recently used and its value returned. -/
def get (c : LRUCache K V) (k : K) : Option V × LRUCache K V :=
  match mapFind k c.cache with
  | none => (none, c)
  | some v => (some v, updateAccessOrder c k)

/-- `set(key, value)`: update-in-place for an existing key; otherwise, when
the store is full and the access-order list non-empty, evict the
least-recently-used entry (invoking `onEvict` when its value exists —
returned here as the second component) and append the new entry. -/
def set (c : LRUCache K V) (k : K) (v : V) : LRUCache K V × Option (K × V) :=
  if (mapFind k c.cache).isSome then
    (updateAccessOrder { c with cache := mapSet k v c.cache } k, none)
  else if c.maxSize ≤ c.cache.length then
    match c.accessOrder with
    | [] =>
      ({ c with cache := mapSet k v c.cache,
                accessOrder := c.accessOrder ++ [k] }, none)
    | lru :: rest =>
      let lruValue := mapFind lru c.cache
      ({ c with cache := mapSet k v (mapErase lru c.cache),
                accessOrder := rest ++ [k] },
       lruValue.map (fun v0 => (lru, v0)))
  else
    ({ c with cache := mapSet k v c.cache,
              accessOrder := c.accessOrder ++ [k] }, none)

/-- Insert a list of key/value pairs in order, collecting the eviction
events in order. -/
def insertAll (c : LRUCache K V) : List (K × V) → LRUCache K V × List (K × V)
  | [] => (c, [])
  | p :: t =>
    let s1 := set c p.1 p.2
    let s2 := insertAll s1.1 t
    (s2.1, s1.2.toList ++ s2.2)

end LRU

namespace Types

/-! ### `types.ts` — data model (`DownloadType`, `GogData`) -/

open Js

/-- Marker recorded by the data store for the ingestion channel. -/
inductive IngestTag
  | url
  | file
deriving DecidableEq

/-- One download record.  `source` is declared required in the interface
but the engine guards against its absence, so it is modelled as optional;
the pre-computed search fields are optional and `fileSizeBytes` is a JS
number (`none` inside = `NaN`). -/
structure DownloadType where
  fileSize : Str
  uploadDate : Str
  uris : List Str
  title : Str
  source : Option Str := none
  titleNormalized : Option Str := none
  sourceNormalized : Option Str := none
  urisNormalized : Option Str := none
  fileSizeBytes : Option (Option ℚ) := none
  ingestionSource : Option IngestTag := none
deriving DecidableEq

/-- One loaded catalog. -/
structure GogData where
  name : Str
  downloads : List DownloadType
deriving DecidableEq

/-- JS truthiness helper: `a || b` for an optional string, falling back on
absence or emptiness. -/
def jsOr (o : Option Str) (d : Str) : Str :=
  match o with
  | some s => if s = [] then d else s
  | none => d

end Types

namespace Search

/-! ### `search.ts` — `parseFileSize`, de-duplication -/

open Js Types

/-- First match of the regex `[\d.]+`. -/
def matchDigits : Str → Option Str
  | [] => none
  | c :: t =>
    if c.isDigit || c = '.' then
      some ((c :: t).takeWhile (fun d => d.isDigit || d = '.'))
    else matchDigits t

/-- Decimal value of a digit string. -/
def digitsToNat (l : Str) : Nat :=
  l.foldl (fun n c => 10 * n + (c.toNat - 48)) 0

/-- `Number.parseFloat` on a string of digits and dots: the longest valid
numeric head (`NaN` = `none` when there is none). -/
def jsParseFloat (l : Str) : Option ℚ :=
  let intPart := l.takeWhile Char.isDigit
  let rest := l.drop intPart.length
  match rest with
  | '.' :: r2 =>
    let frac := r2.takeWhile Char.isDigit
    if intPart = [] ∧ frac = [] then none
    else some ((digitsToNat intPart : ℚ) +
      (digitsToNat frac : ℚ) / (10 : ℚ) ^ frac.length)
  | _ => if intPart = [] then none else some (digitsToNat intPart)

/-- `parseFileSize(sizeStr)` of the search engine: `0` for falsy/`"N/A"`
input or no digit match; otherwise the parsed number scaled by the
`GB`/`MB`/`KB` suffix, or taken bare. -/
def parseFileSize (sizeStr : Str) : Option ℚ :=
  if sizeStr = [] ∨ sizeStr = str "N/A" then some 0
  else
    match matchDigits sizeStr with
    | none => some 0
    | some m =>
      let num := jsParseFloat m
      if containsSub (str "GB") sizeStr then num.map (· * (1024 ^ 3 : ℚ))
      else if containsSub (str "MB") sizeStr then num.map (· * (1024 ^ 2 : ℚ))
      else if containsSub (str "KB") sizeStr then num.map (· * (1024 : ℚ))
      else num

/-- The corrupt-data sentinel title. -/
def sentinelTitle : Str := str "Wkeynhk"

/-- A record dropped outright by de-duplication: empty/whitespace-only or
sentinel title. -/
def invalidTitle (dl : DownloadType) : Prop :=
  jsTrim dl.title = [] ∨ dl.title = sentinelTitle

instance (dl : DownloadType) : Decidable (invalidTitle dl) := by
  unfold invalidTitle; infer_instance

/-- The stamp applied to a surviving record: owning catalog name as source
and pre-parsed byte size. -/
def stampRecord (name : Str) (dl : DownloadType) : DownloadType :=
  { dl with source := some name, fileSizeBytes := some (parseFileSize dl.fileSize) }

/-- De-duplication filter pass over one catalog, threading the process-wide
`processed` key set (`title:uploadDate` strings). -/
def dedupOne (processed : List Str) : List DownloadType → List Str × List DownloadType
  | [] => (processed, [])
  | dl :: rest =>
    if invalidTitle dl then dedupOne processed rest
    else
      let key := dl.title ++ ':' :: dl.uploadDate
      if key ∈ processed then dedupOne processed rest
      else
        let r := dedupOne (key :: processed) rest
        (r.1, dl :: r.2)

/-- Worker for `processAndDeduplicateDownloads`, threading the key set
across catalogs. -/
def processAndDeduplicateDownloadsGo (processed : List Str) :
    List GogData → List DownloadType
  | [] => []
  | gog :: rest =>
    if gog.name = [] then processAndDeduplicateDownloadsGo processed rest
    else
      let r := dedupOne processed gog.downloads
      r.2.map (stampRecord gog.name) ++
        processAndDeduplicateDownloadsGo r.1 rest

/-- `processAndDeduplicateDownloads(gogs)`: flatten the catalogs, dropping
catalogs without a name and records with invalid titles, keeping the first
record per `title:uploadDate` key, stamping survivors with catalog name
and parsed byte size. -/
def processAndDeduplicateDownloads (gogs : List GogData) : List DownloadType :=
  processAndDeduplicateDownloadsGo [] gogs

/-- Claim-side reading of C4 (pair-keyed, no catalog-name guard): worker on
the flattened name-annotated record list, threading the set of seen
`(title, uploadDate)` pairs. -/
def specDedupPairGo (seen : List (Str × Str)) :
    List (Str × DownloadType) → List DownloadType
  | [] => []
  | nmdl :: rest =>
    if invalidTitle nmdl.2 then specDedupPairGo seen rest
    else if (nmdl.2.title, nmdl.2.uploadDate) ∈ seen then
      specDedupPairGo seen rest
    else
      stampRecord nmdl.1 nmdl.2 ::
        specDedupPairGo ((nmdl.2.title, nmdl.2.uploadDate) :: seen) rest

/-- Claim C4 as stated: flatten all catalogs, drop records with
empty/whitespace-only or sentinel titles, keep the first occurrence of
each `(title, uploadDate)` pair, and stamp survivors with catalog name and
parsed byte size. -/
def specDedupPair (gogs : List GogData) : List DownloadType :=
  specDedupPairGo []
    (gogs.flatMap fun g => g.downloads.map fun dl => (g.name, dl))

/-- Amended reading of C4: worker on the flattened name-annotated list,
de-duplicating by the concatenated string `title:uploadDate` and dropping
all records of catalogs whose name is empty; returns the survivors and the
final key set. -/
def specDedupAmendedGo (seen : List Str) :
    List (Str × DownloadType) → List DownloadType × List Str
  | [] => ([], seen)
  | nmdl :: rest =>
    if nmdl.1 = [] then specDedupAmendedGo seen rest
    else if invalidTitle nmdl.2 then specDedupAmendedGo seen rest
    else
      let key := nmdl.2.title ++ ':' :: nmdl.2.uploadDate
      if key ∈ seen then specDedupAmendedGo seen rest
      else
        let r := specDedupAmendedGo (key :: seen) rest
        (stampRecord nmdl.1 nmdl.2 :: r.1, r.2)

/-- The amended claim C4: flatten, drop records of unnamed catalogs and
records with invalid titles, keep the first record per `title:uploadDate`
key string, stamp survivors. -/
def specDedupAmended (gogs : List GogData) : List DownloadType :=
  (specDedupAmendedGo []
    (gogs.flatMap fun g => g.downloads.map fun dl => (g.name, dl))).1

end Search

namespace DataStore

/-! ### `use-data-state.ts` — the private `parseFileSize` -/

open Js Types

/-- `Math.round`. -/
def jsRound (q : ℚ) : ℚ := Int.floor (q + 1 / 2)

/-- The data store's private `parseFileSize(sizeStr?)`: identical scan and
suffix logic to the engine's, but each branch result passes through
`Math.round`. -/
def parseFileSize (sizeStr : Option Str) : Option ℚ :=
  match sizeStr with
  | none => some 0
  | some s =>
    if s = [] ∨ s = str "N/A" then some 0
    else
      match Search.matchDigits s with
      | none => some 0
      | some m =>
        let num := Search.jsParseFloat m
        if containsSub (str "GB") s then
          num.map (fun n => jsRound (n * (1024 ^ 3 : ℚ)))
        else if containsSub (str "MB") s then
          num.map (fun n => jsRound (n * (1024 ^ 2 : ℚ)))
        else if containsSub (str "KB") s then
          num.map (fun n => jsRound (n * (1024 : ℚ)))
        else num.map jsRound

end DataStore

namespace Search

/-! ### `search.ts` — term scoring and `filterResults` -/

open Js Utils TypesMod Types

/-- Helper turning a list of string literals into the model. -/
def strs (l : List String) : List Str := l.map String.data

/-- The fixed stopword set (EN + PT + RU), as listed in the source
(`Set` construction collapses its duplicates; list membership is used
here, which is equivalent). -/
def DEFAULT_STOPWORDS : List Str :=
  strs
   ["the", "a", "an", "and", "or", "but", "if", "else", "while", "for",
    "to", "of", "in", "on", "at", "by", "from", "with", "without", "up",
    "down", "is", "am", "are", "was", "were", "be", "been", "being",
    "have", "has", "had", "do", "does", "did", "will", "would", "should",
    "could", "can", "may", "might", "must", "shall", "i", "you", "he",
    "she", "it", "we", "they", "me", "him", "her", "us", "them", "my",
    "your", "his", "her", "its", "our", "their", "this", "that", "these",
    "those", "what", "which", "who", "whom", "why", "how", "as", "than",
    "into", "through", "during", "before", "after", "above", "below",
    "between", "under", "over", "out", "off", "about", "against", "along",
    "around", "such", "so", "some", "no", "not", "only", "just", "very",
    "too", "all", "each", "o", "a", "os", "as", "um", "uma", "uns",
    "umas", "de", "do", "da", "dos", "das", "e", "ou", "mais", "menos",
    "em", "no", "na", "nos", "nas", "por", "para", "com", "sem", "é",
    "são", "era", "eram", "foi", "foram", "ser", "estar", "tem", "têm",
    "tinha", "tinham", "teve", "tiveram", "ter", "eu", "tu", "você",
    "ele", "ela", "nós", "vós", "eles", "elas", "me", "te", "se", "lhe",
    "nos", "vos", "lhes", "meu", "teu", "seu", "nosso", "vosso", "dele",
    "dela", "este", "esse", "aquele", "este", "essa", "aquela", "que",
    "qual", "quais", "quanto", "quantos", "quanta", "quantas", "como",
    "quando", "onde", "porquê", "porque", "não", "sim", "talvez",
    "apenas", "só", "somente", "muito", "todo", "toda", "и", "в", "во",
    "не", "что", "он", "на", "я", "с", "со", "а", "то", "все", "она",
    "так", "его", "но", "да", "ты", "к", "у", "же", "вы", "за", "бы",
    "по", "только", "ее", "может", "они", "из", "ему", "еще", "нет", "от",
    "ни", "быть", "у", "ж", "вот", "ведь", "там", "тем", "чем", "себя",
    "ничего", "ей", "может", "они", "тот", "для", "потом", "себе",
    "ничего", "ей", "может", "они", "этот", "какая", "много", "разве",
    "три", "эту", "моя", "впрочем", "хоть", "после", "над", "больше",
    "тот", "через", "эти", "нас", "про", "всех", "них", "какая", "много",
    "разве", "три", "эту", "моя", "впрочем", "хоть", "after", "над",
    "больше", "тот", "через", "эти", "нас", "про", "всех", "них"]

/-- Match mode. -/
inductive SearchMode
  | all
  | any
deriving DecidableEq

/-- Whether the character at offset `i` (0-based) is a regex word
character (out-of-range counts as non-word). -/
def wordAt (text : Str) (i : Nat) : Bool :=
  match text.drop i with
  | [] => false
  | c :: _ => isWordChar c

/-- The `\b` assertion at offset `i`: word-ness changes between the
previous character and the current one. -/
def boundaryAt (text : Str) (i : Nat) : Bool :=
  (if i = 0 then false else wordAt text (i - 1)) != wordAt text i

/-- ``new RegExp(`\b${term}\b`, "i").test(text)``: the term occurs at some
offset with a word boundary on each side, case-insensitively (modelled by
case-folding both sides; terms contain no regex metacharacters). -/
def regexTermTest (term text : Str) : Bool :=
  let t := term.map jsToLower
  let s := text.map jsToLower
  (List.range (s.length + 1)).any fun i =>
    t.isPrefixOf (s.drop i) && boundaryAt s i && boundaryAt s (i + t.length)

/-- Payload of the per-record (weak) search cache. -/
structure SearchCacheEntry where
  searchText : Str
  words : List Str
deriving DecidableEq

/-- Payload of the persistent LRU search cache (keyed by
`title:uploadDate`), carrying the fields used to validate freshness. -/
structure PersistentEntry where
  searchText : Str
  words : List Str
  title : Str
  uploadDate : Str
deriving DecidableEq

/-- The two module-level caches: the weak per-record cache (value-keyed
here, standing in for object-identity keying) and the LRU cache of
capacity 5000. -/
structure CacheState where
  weak : List (DownloadType × SearchCacheEntry)
  persistent : LRU.LRUCache Str PersistentEntry

/-- Fresh module state: both caches empty, LRU capacity 5000. -/
def initialCaches : CacheState := ⟨[], ⟨[], 5000, []⟩⟩

/-- The derived search data of one record: normalized title and source
joined, whitespace-collapsed and trimmed, padded with spaces; plus the
word list. -/
def computeSearchData (item : DownloadType) : SearchCacheEntry :=
  let title := jsOr item.titleNormalized (normalizeStr item.title)
  let source := jsOr item.sourceNormalized
    (match item.source with
     | some s => if s = [] then [] else normalizeStr s
     | none => [])
  let combined := jsTrim (collapseRuns jsSpace ' ' (title ++ ' ' :: source))
  let searchText := ' ' :: (combined ++ [' '])
  let words :=
    if combined.length > 0 then
      (splitOnChar ' ' combined).filter (fun w => w.length > 0)
    else []
  ⟨searchText, words⟩

/-- Cache lookup/population for one record: weak cache first, then the
persistent LRU (whose hit is validated against the record's title and
upload date), computing and populating both caches on a miss. -/
def getSearchData (st : CacheState) (item : DownloadType) :
    SearchCacheEntry × CacheState :=
  let persistentKey := item.title ++ ':' :: item.uploadDate
  match LRU.mapFind item st.weak with
  | some e => (e, st)
  | none =>
    let r := LRU.get st.persistent persistentKey
    match r.1 with
    | some p =>
      if p.title = item.title ∧ p.uploadDate = item.uploadDate then
        let e : SearchCacheEntry := ⟨p.searchText, p.words⟩
        (e, ⟨LRU.mapSet item e st.weak, r.2⟩)
      else
        let e := computeSearchData item
        let pset := LRU.set r.2 persistentKey
          ⟨e.searchText, e.words, item.title, item.uploadDate⟩
        (e, ⟨LRU.mapSet item e st.weak, pset.1⟩)
    | none =>
      let e := computeSearchData item
      let pset := LRU.set r.2 persistentKey
        ⟨e.searchText, e.words, item.title, item.uploadDate⟩
      (e, ⟨LRU.mapSet item e st.weak, pset.1⟩)

/-- `scoreForTerm(term)` from `filterResults`: tiered relevance of one
term against a record's padded search text and word list.  The ratio
thresholds `0.6`/`0.4` are exact rationals. -/
def scoreForTerm (searchText : Str) (words : List Str) (term : Str) : Nat :=
  if term.length < 3 then
    if regexTermTest term searchText then 40 else 0
  else if containsSub term searchText then
    if regexTermTest term searchText then 100
    else if words.any (fun w => term.isPrefixOf w) then 75
    else
      match words.find? (fun w => containsSub term w && decide (¬w = term)) with
      | some substringWord =>
        if (term.length : ℚ) / substringWord.length > 6 / 10 then 60
        else if (term.length : ℚ) / substringWord.length > 4 / 10 then 45
        else 25
      | none => 15
  else 0

/-- The post-stopword search terms: normalize the remaining query, split
on whitespace, drop empties, remove stopwords unless that would drop every
term. -/
def searchTermsOf (remainingQuery : Str) : List Str :=
  let normalizedTerms :=
    (splitWs (normalizeStr remainingQuery)).filter (fun t => t.length > 0)
  let filtered :=
    normalizedTerms.filter (fun t => !(DEFAULT_STOPWORDS.contains t))
  if filtered.length = 0 then normalizedTerms else filtered

/-- The exact-phrase gate of `filterResults`: when phrases were supplied,
the record's normalized title-and-source text must pass
`checkExactPhrases`. -/
def phraseGate (exactPhrases : List Str) (item : DownloadType) : Bool :=
  if exactPhrases.length > 0 then
    checkExactPhrases
      (jsOr item.titleNormalized (normalizeStr item.title) ++
        ' ' :: jsOr item.sourceNormalized (normalizeStr (jsOr item.source [])))
      exactPhrases
  else true

/-- A record together with its total score. -/
structure Scored where
  item : DownloadType
  score : Nat
deriving DecidableEq

/-- The original-terms scoring loop: running total and the `allMatched`
flag (cleared whenever a term scores zero). -/
def originalLoop (e : SearchCacheEntry) (searchTerms : List Str) : Nat × Bool :=
  searchTerms.foldl
    (fun acc term =>
      let s := scoreForTerm e.searchText e.words term
      (acc.1 + s, acc.2 && decide (¬s = 0)))
    (0, true)

/-- The synonym scoring loop: positive synonym scores contribute
`Math.floor(score * 0.7)` — which equals `7 * score / 10` in natural
division both exactly and under IEEE-754 doubles for every tier value the
engine produces. -/
def synonymLoop (e : SearchCacheEntry) (synonymTerms : List Str)
    (total : Nat) : Nat :=
  synonymTerms.foldl
    (fun acc synTerm =>
      let s := scoreForTerm e.searchText e.words synTerm
      if s > 0 then acc + 7 * s / 10 else acc)
    total

/-- Total score of one record (given its cached search data): original
terms, weighted synonyms, then the recency bonus when the total is
positive; paired with the `allMatched` flag. -/
def itemTotal (parseDate : Str → Option Int) (now : Int)
    (searchTerms expandedSearchTerms : List Str) (e : SearchCacheEntry)
    (item : DownloadType) : Nat × Bool :=
  let r := originalLoop e searchTerms
  let synonymTerms :=
    expandedSearchTerms.filter (fun t => !(searchTerms.contains t))
  let total := synonymLoop e synonymTerms r.1
  let total := if total > 0
    then total + getRecencyBonus parseDate now item.uploadDate
    else total
  (total, r.2)

/-- Processing of one record inside the `filterResults` loop: skip records
without a title, apply the exact-phrase gate, obtain (and cache) the
search data, score, then apply the match-mode drop rule. -/
def processItem (parseDate : Str → Option Int) (now : Int)
    (searchMode : SearchMode) (exactPhrases searchTerms expanded : List Str)
    (st : CacheState) (item : DownloadType) : Option Scored × CacheState :=
  if item.title = [] then (none, st)
  else if !phraseGate exactPhrases item then (none, st)
  else
    let r := getSearchData st item
    let t := itemTotal parseDate now searchTerms expanded r.1 item
    if searchMode = SearchMode.all ∧ t.2 = false then (none, r.2)
    else if searchMode = SearchMode.any ∧ t.1 = 0 then (none, r.2)
    else (some ⟨item, t.1⟩, r.2)

/-- The scoring loop over all records, threading the cache state. -/
def runItems (parseDate : Str → Option Int) (now : Int)
    (searchMode : SearchMode) (exactPhrases searchTerms expanded : List Str)
    (st : CacheState) : List DownloadType → List Scored
  | [] => []
  | item :: rest =>
    let r := processItem parseDate now searchMode exactPhrases searchTerms
      expanded st item
    match r.1 with
    | some sc => sc :: runItems parseDate now searchMode exactPhrases
        searchTerms expanded r.2 rest
    | none => runItems parseDate now searchMode exactPhrases searchTerms
        expanded r.2 rest

/-- The result comparator: descending score, ties by locale comparison of
the lower-cased titles (the host collator is a parameter). -/
def jsCompare (localeCmp : Str → Str → Int) (a b : Scored) : Int :=
  if a.score ≠ b.score then (b.score : Int) - (a.score : Int)
  else localeCmp (a.item.title.map jsToLower) (b.item.title.map jsToLower)

/-- `Array.prototype.sort`'s ordering relation for that comparator. -/
def sortLe (localeCmp : Str → Str → Int) (a b : Scored) : Bool :=
  decide (jsCompare localeCmp a b ≤ 0)

/-- The scored, sorted result list of `filterResults` (main path). -/
def filterResultsScored (parseDate : Str → Option Int) (now : Int)
    (localeCmp : Str → Str → Int) (downloads : List DownloadType)
    (searchQuery : Str) (searchMode : SearchMode) : List Scored :=
  let er := extractExactPhrases searchQuery
  let searchTerms := searchTermsOf er.remainingQuery
  let expanded := expandSearchTermsWithSynonyms searchTerms
  (runItems parseDate now searchMode er.exactPhrases searchTerms expanded
    initialCaches downloads).mergeSort (sortLe localeCmp)

/-- `filterResults(downloads, searchQuery, searchMode)`: blank queries
return the input unchanged, empty inputs return `[]`, otherwise the
scored/sorted survivors are returned. -/
def filterResults (parseDate : Str → Option Int) (now : Int)
    (localeCmp : Str → Str → Int) (downloads : List DownloadType)
    (searchQuery : Str) (searchMode : SearchMode) : List DownloadType :=
  if jsTrim searchQuery = [] then downloads
  else if downloads.length = 0 then []
  else
    (filterResultsScored parseDate now localeCmp downloads searchQuery
      searchMode).map (fun r => r.item)

/-- Claim-side reading of the per-term tiers of C1 (`specScoreForTerm`):
short terms score 40 on a whole-word match else 0; terms of length ≥ 3
score 100 on a whole-word match, else 75 when some word starts with the
term, else by the containing-word ratio tiers, else 15 when the term
occurs anywhere in the text, else 0. -/
def specScoreForTerm (searchText : Str) (words : List Str) (term : Str) : Nat :=
  if term.length < 3 then
    if regexTermTest term searchText then 40 else 0
  else if regexTermTest term searchText then 100
  else if words.any (fun w => term.isPrefixOf w) then 75
  else
    match words.find? (fun w => containsSub term w && decide (¬w = term)) with
    | some w =>
      if (term.length : ℚ) / w.length > 6 / 10 then 60
      else if (term.length : ℚ) / w.length > 4 / 10 then 45
      else 25
    | none => if containsSub term searchText then 15 else 0

/-- The pure (cache-free) record decision of `filterResults`, used to
state C2. -/
def pureProcessItem (parseDate : Str → Option Int) (now : Int)
    (searchMode : SearchMode) (exactPhrases searchTerms expanded : List Str)
    (item : DownloadType) : Option Scored :=
  if item.title = [] then none
  else if !phraseGate exactPhrases item then none
  else
    let t := itemTotal parseDate now searchTerms expanded
      (computeSearchData item) item
    if searchMode = SearchMode.all ∧ t.2 = false then none
    else if searchMode = SearchMode.any ∧ t.1 = 0 then none
    else some ⟨item, t.1⟩

/-- Claim-side total score of C2: the sum of the original terms' scores,
plus `floor(0.7 · score)` for each synonym term not among the originals,
plus the recency bonus when that sum is positive. -/
def specTotalScore (parseDate : Str → Option Int) (now : Int)
    (searchTerms expanded : List Str) (item : DownloadType) : Nat :=
  let e := computeSearchData item
  let base := (searchTerms.map (scoreForTerm e.searchText e.words)).sum
  let syn := ((expanded.filter (fun t => !(searchTerms.contains t))).map
    (fun t => 7 * scoreForTerm e.searchText e.words t / 10)).sum
  if base + syn > 0 then base + syn + getRecencyBonus parseDate now item.uploadDate
  else base + syn

/-- A reference locale comparator for witnesses: code-point lexicographic
comparison. -/
def lexCmp : Str → Str → Int
  | [], [] => 0
  | [], _ :: _ => -1
  | _ :: _, [] => 1
  | a :: s, b :: t =>
    if a < b then -1 else if b < a then 1 else lexCmp s t

end Search

namespace Search

open Js Types

/-- Well-formedness of the weak cache: every entry is the canonical search
data of its key record. -/
def WeakOk (weak : List (DownloadType × SearchCacheEntry)) : Prop :=
  ∀ q ∈ weak, q.2 = computeSearchData q.1

/-- Well-formedness of the persistent cache relative to a record list:
every entry was populated from some record of the list. -/
def PersOk (downloads : List DownloadType)
    (c : LRU.LRUCache Str PersistentEntry) : Prop :=
  ∀ q ∈ c.cache, ∃ d ∈ downloads,
    q.2.title = d.title ∧ q.2.uploadDate = d.uploadDate ∧
    q.2.searchText = (computeSearchData d).searchText ∧
    q.2.words = (computeSearchData d).words

/-- Key uniqueness of a record list: records agreeing on title and upload
date are equal (what upstream de-duplication guarantees). -/
def KeysOk (downloads : List DownloadType) : Prop :=
  ∀ d ∈ downloads, ∀ e ∈ downloads,
    d.title = e.title → d.uploadDate = e.uploadDate → d = e

end Search

/-- A fixture record: title `"t"`, upload date `"d"`, normalized source
`"alpha"`. -/
def c2A : Types.DownloadType :=
  { fileSize := [], uploadDate := Js.str "d", uris := [],
    title := Js.str "t", titleNormalized := some (Js.str "t"),
    sourceNormalized := some (Js.str "alpha") }

/-- A second fixture record sharing `c2A`'s title and upload date (hence
its persistent-cache key) but with normalized source `"beta"`. -/
def c2B : Types.DownloadType :=
  { fileSize := [], uploadDate := Js.str "d", uris := [],
    title := Js.str "t", titleNormalized := some (Js.str "t"),
    sourceNormalized := some (Js.str "beta") }

/-- The post-stopword search terms of the fixture query `"beta"`. -/
def c2Terms : List Js.Str :=
  Search.searchTermsOf
    (TypesMod.extractExactPhrases (Js.str "beta")).remainingQuery

/-- Their synonym expansion. -/
def c2Expanded : List Js.Str := TypesMod.expandSearchTermsWithSynonyms c2Terms

namespace Loader

open Js

/-- A parsed JSON value (the result of `JSON.parse`). -/
inductive JsonVal where
  | null
  | boolean (b : Bool)
  | num (q : ℚ)
  | strv (s : Str)
  | arr (xs : List JsonVal)
  | obj (fields : List (Str × JsonVal))

/-- JS truthiness of a JSON value. -/
def truthy : JsonVal → Bool
  | .null => false
  | .boolean b => b
  | .num q => decide (¬q = 0)
  | .strv s => decide (¬s = [])
  | .arr _ => true
  | .obj _ => true

/-- `typeof v === "object"` (true for `null`, arrays and objects). -/
def isObjectType : JsonVal → Bool
  | .null => true
  | .arr _ => true
  | .obj _ => true
  | _ => false

/-- `typeof v === "object" && v !== null`. -/
def isNonNullObject : JsonVal → Bool
  | .arr _ => true
  | .obj _ => true
  | _ => false

/-- Property lookup on an object's field list (first match). -/
def getField : List (Str × JsonVal) → Str → Option JsonVal
  | [], _ => none
  | p :: rest, key => if p.1 = key then some p.2 else getField rest key

/-- JS property access `v[key]`: defined on objects, `undefined`
(`none`) on every other value. -/
def jsonField : JsonVal → Str → Option JsonVal
  | .obj fields, key => getField fields key
  | _, _ => none

/-- One element of `data.downloads` as checked by `isValidGogData`:
an object with string `title`, `fileSize`, `uploadDate` and an array
`uris`. -/
def validDownload (dl : JsonVal) : Bool :=
  isNonNullObject dl &&
  (match jsonField dl (str "title") with
   | some (JsonVal.strv _) => true
   | _ => false) &&
  (match jsonField dl (str "fileSize") with
   | some (JsonVal.strv _) => true
   | _ => false) &&
  (match jsonField dl (str "uploadDate") with
   | some (JsonVal.strv _) => true
   | _ => false) &&
  (match jsonField dl (str "uris") with
   | some (JsonVal.arr _) => true
   | _ => false)

/-- `isValidGogData(json)`: a truthy object with a string `name` and an
array `downloads` of valid download entries. -/
def isValidGogData (json : JsonVal) : Bool :=
  if !truthy json || !isObjectType json then false
  else
    (match jsonField json (str "name") with
     | some (JsonVal.strv _) => true
     | _ => false) &&
    (match jsonField json (str "downloads") with
     | some (JsonVal.arr dls) => dls.all validDownload
     | _ => false)

/-- `FAILED_URL_RETRY_MS = 10 * 60 * 1000`. -/
def FAILED_URL_RETRY_MS : Int := 10 * 60 * 1000

/-- The loader module's URL bookkeeping: the `processedUrlLoads` and
`recentlyRemovedUrls` sets, the `failedUrlAt` timestamp record, and the
URL response cache behind `getCachedUrl`/`cacheUrlData`. -/
structure LoaderState where
  processedUrlLoads : List Str
  recentlyRemovedUrls : List Str
  failedUrlAt : List (Str × Int)
  urlCache : List (Str × JsonVal)

/-- The host's answer to one `fetchWithTimeout` call: the `ok` flag, the
response text, and the result of `JSON.parse` on it (`none` when parsing
throws). -/
structure FetchResult where
  ok : Bool
  text : Str
  parsed : Option JsonVal

/-- The observable effects of one `loadSingleSource` call: whether the
network fetch was performed, the payload passed to `onAddData` (if any),
and whether `onError` was invoked. -/
structure LoadResult where
  fetched : Bool
  added : Option JsonVal
  errored : Bool

/-- `lastFailed && Date.now() - lastFailed < FAILED_URL_RETRY_MS` (a zero
timestamp is falsy). -/
def failedRecently (lastFailed : Option Int) (now : Int) : Bool :=
  match lastFailed with
  | some t => decide (¬t = 0) && decide (now - t < FAILED_URL_RETRY_MS)
  | none => false

/-- The part of `loadSingleSource` from the `fetchWithTimeout` call on:
a thrown fetch (`none`) lands in the `catch` block (failure recorded,
`onError` fired); a non-ok response, an HTML-looking body and an invalid
payload record a failure silently; a `JSON.parse` failure records a
failure and fires `onError`; a valid payload is cached, the URL marked
processed, and `onAddData` fired. -/
def fetchPhase (now : Int) (url : Str) (fetchRes : Option FetchResult)
    (st : LoaderState) : LoaderState × LoadResult :=
  match fetchRes with
  | none =>
    ({ st with failedUrlAt := LRU.mapSet url now st.failedUrlAt },
     ⟨true, none, true⟩)
  | some res =>
    if !res.ok then
      ({ st with failedUrlAt := LRU.mapSet url now st.failedUrlAt },
       ⟨true, none, false⟩)
    else if (str "<").isPrefixOf (jsTrim res.text) then
      ({ st with failedUrlAt := LRU.mapSet url now st.failedUrlAt },
       ⟨true, none, false⟩)
    else
      match res.parsed with
      | none =>
        ({ st with failedUrlAt := LRU.mapSet url now st.failedUrlAt },
         ⟨true, none, true⟩)
      | some json =>
        if !isValidGogData json then
          ({ st with failedUrlAt := LRU.mapSet url now st.failedUrlAt },
           ⟨true, none, false⟩)
        else
          ({ st with
              urlCache := LRU.mapSet url json st.urlCache,
              processedUrlLoads :=
                TypesMod.addUnique st.processedUrlLoads url },
           ⟨true, some json, false⟩)

/-- `loadSingleSource(source, callbacks)` for a URL source: skip when the
URL is already processed; serve and mark processed on a URL-cache hit;
skip when a nonzero failure timestamp for the URL is younger than
`FAILED_URL_RETRY_MS`; skip when the URL or the source's name is in
`recentlyRemovedUrls`; otherwise fetch and run the response pipeline. -/
def loadSingleSource (now : Int) (url : Str) (name : Option Str)
    (fetchRes : Option FetchResult) (st : LoaderState) :
    LoaderState × LoadResult :=
  if st.processedUrlLoads.contains url then (st, ⟨false, none, false⟩)
  else
    match LRU.mapFind url st.urlCache with
    | some cached =>
      ({ st with processedUrlLoads :=
          TypesMod.addUnique st.processedUrlLoads url },
       ⟨false, some cached, false⟩)
    | none =>
      if failedRecently (LRU.mapFind url st.failedUrlAt) now then
        (st, ⟨false, none, false⟩)
      else if st.recentlyRemovedUrls.contains url
          || st.recentlyRemovedUrls.contains (Types.jsOr name []) then
        (st, ⟨false, none, false⟩)
      else fetchPhase now url fetchRes st

end Loader

/-- A loader-state fixture: a failure for URL `"u"` recorded at time 5,
`"u"` also in `recentlyRemovedUrls`, nothing processed or cached. -/
def c8St : Loader.LoaderState :=
  { processedUrlLoads := [], recentlyRemovedUrls := [Js.str "u"],
    failedUrlAt := [(Js.str "u", 5)], urlCache := [] }

/-- A loader-state fixture: a failure for URL `"u"` recorded at time 5,
nothing removed, processed or cached. -/
def c8St2 : Loader.LoaderState :=
  { processedUrlLoads := [], recentlyRemovedUrls := [],
    failedUrlAt := [(Js.str "u", 5)], urlCache := [] }

namespace DataStore

/-! ### `use-data-state.ts` — the zustand data store -/

open Js Types

/-- `MAX_GOG_SOURCES = 50`. -/
def MAX_GOG_SOURCES : Nat := 50

/-- `MAX_DOWNLOADS_PER_SOURCE = 200`. -/
def MAX_DOWNLOADS_PER_SOURCE : Nat := 200

/-- The zero-width / bidi / word-joiner ranges stripped by
`sanitizeForNormalization`. -/
def isZeroWidth (c : Char) : Bool :=
  (0x200B ≤ c.toNat && c.toNat ≤ 0x200F) ||
  (0x202A ≤ c.toNat && c.toNat ≤ 0x202E) ||
  (0x2060 ≤ c.toNat && c.toNat ≤ 0x206F)

/-- The C0/C1 control characters (incl. DEL) replaced by spaces. -/
def isControlChar (c : Char) : Bool :=
  c.toNat ≤ 0x1F || (0x7F ≤ c.toNat && c.toNat ≤ 0x9F)

/-- The dash code points replaced by spaces. -/
def isDashChar (c : Char) : Bool :=
  (0x2010 ≤ c.toNat && c.toNat ≤ 0x2015) || c.toNat = 0x2212

/-- `sanitizeForNormalization(s?)`: drop BOMs and zero-width/bidi
characters, blank out control characters and dashes, collapse whitespace
runs, trim. -/
def sanitizeForNormalization (s : Option Str) : Str :=
  match s with
  | none => []
  | some s0 =>
    if s0 = [] then []
    else
      let out1 := s0.filter (fun c => !(decide (c.toNat = 0xFEFF)))
      let out2 := out1.filter (fun c => !isZeroWidth c)
      let out3 := out2.map (fun c => if isControlChar c then ' ' else c)
      let out4 := out3.map (fun c => if isDashChar c then ' ' else c)
      jsTrim (collapseRuns jsSpace ' ' out4)

/-- `normalizeGogData(src)`: cap the download list at 200 records and
precompute each record's byte size and normalized title/source/URI
fields; the ingestion marker is reset to `undefined`. -/
def normalizeGogData (src : GogData) : GogData :=
  { src with downloads :=
      (src.downloads.take MAX_DOWNLOADS_PER_SOURCE).map (fun dl =>
        { dl with
            fileSizeBytes := some (parseFileSize (some dl.fileSize)),
            titleNormalized := some (Utils.normalizeText (some dl.title)),
            sourceNormalized := some (Utils.normalizeText (some
              (match dl.source with
               | some s => s
               | none => src.name))),
            urisNormalized := some (Utils.normalizeText (some
              (List.intercalate [' '] dl.uris))),
            ingestionSource := none }) }

/-- JS truthiness of the optional `sourceUrl` argument. -/
def urlTruthy (o : Option Str) : Bool := decide (¬jsOr o [] = [])

/-- The URL-source branch of `addGogData`: re-derive `titleNormalized`
and `urisNormalized` from sanitized raw fields. -/
def resanitizeDownloads (g : GogData) : GogData :=
  { g with downloads := g.downloads.map (fun dl =>
      { dl with
          titleNormalized := some (Utils.normalizeText (some
            (sanitizeForNormalization (some dl.title)))),
          urisNormalized := some (Utils.normalizeText (some
            (sanitizeForNormalization (some
              (List.intercalate [' '] dl.uris))))) }) }

/-- `downloads.map(dl => ({ ...dl, __ingestionSource: tag }))`. -/
def tagDownloads (tag : IngestTag) (g : GogData) : GogData :=
  { g with downloads := g.downloads.map (fun dl =>
      { dl with ingestionSource := some tag }) }

/-- One saved-source metadata entry (`GogSourcesStoreItemWithData`). -/
structure SavedSource where
  name : Str
  url : Str
  type : IngestTag
  lastUpdated : Str
  serverId : Option Str := none

/-- The store's state: the catalog list, the saved-source list and the
module-level `uploadInProgress` set. -/
structure StoreState where
  gogData : List GogData
  savedSources : List SavedSource
  uploadInProgress : List Str

/-- The store before any operation. -/
def initialStoreState : StoreState := ⟨[], [], []⟩

/-- Replace the element matched by `p` in place, or report no match. -/
def upsertGo (p : SavedSource → Bool) (meta : SavedSource) :
    List SavedSource → Option (List SavedSource)
  | [] => none
  | s :: rest =>
    if p s then some (meta :: rest)
    else
      match upsertGo p meta rest with
      | some r => some (s :: r)
      | none => none

/-- `findIndex` / replace-or-push on the saved-source list. -/
def upsertSaved (p : SavedSource → Bool) (meta : SavedSource)
    (l : List SavedSource) : List SavedSource :=
  match upsertGo p meta l with
  | some r => r
  | none => l ++ [meta]

/-- `Set.prototype.delete`. -/
def removeStr (l : List Str) (x : Str) : List Str :=
  l.filter (fun s => decide (¬s = x))

/-- The shared replace-and-cap step on the catalog list: drop every
catalog with the incoming name, append the incoming catalog, and keep
only the last `MAX_GOG_SOURCES` entries on overflow (`slice(-50)`). -/
def replaceCap (g : GogData) (l : List GogData) : List GogData :=
  let l0 := l.filter (fun x => decide (¬x.name = g.name)) ++ [g]
  if l0.length > MAX_GOG_SOURCES then l0.drop (l0.length - MAX_GOG_SOURCES)
  else l0

/-- The normalized, sanitized and tagged catalog `addGogData` stores. -/
def prunedOf (data : GogData) (sourceUrl : Option Str) : GogData :=
  let pruned0 := normalizeGogData data
  let pruned1 :=
    if urlTruthy sourceUrl then resanitizeDownloads pruned0 else pruned0
  tagDownloads (if urlTruthy sourceUrl then IngestTag.url else IngestTag.file)
    pruned1

/-- `addGogData(data, sourceUrl?)`: bail out while an upload for the same
name is in flight, else mark it in flight, store the normalized catalog
(replacing any same-named one and dropping the oldest on overflow),
upsert the saved-source metadata (strict URL match for URL sources,
name+type match for files), and — for URL sources only — clear the
in-flight mark synchronously (file uploads clear it when the async server
upload settles, see `finishUpload`). -/
def addGogData (data : GogData) (sourceUrl : Option Str) (nowIso : Str)
    (st : StoreState) : StoreState :=
  if st.uploadInProgress.contains data.name then st
  else
    let inProg := TypesMod.addUnique st.uploadInProgress data.name
    let pruned := prunedOf data sourceUrl
    let tag := if urlTruthy sourceUrl then IngestTag.url else IngestTag.file
    let meta : SavedSource :=
      ⟨pruned.name, jsOr sourceUrl [], tag, nowIso, none⟩
    let p : SavedSource → Bool :=
      if urlTruthy sourceUrl then fun s => decide (s.url = jsOr sourceUrl [])
      else fun s => decide (s.name = pruned.name) &&
        decide (s.type = IngestTag.file)
    ⟨replaceCap pruned st.gogData,
     upsertSaved p meta st.savedSources,
     if urlTruthy sourceUrl then removeStr inProg data.name else inProg⟩

/-- Resolution of the async `uploadToServer` promise for a file upload:
on success stamp the matching saved sources with the server id; either
way clear the in-flight mark. -/
def finishUpload (name : Str) (serverId : Option Str) (st : StoreState) :
    StoreState :=
  { st with
      savedSources :=
        match serverId with
        | none => st.savedSources
        | some id =>
          st.savedSources.map (fun ss =>
            if ss.name = name then { ss with serverId := some id } else ss),
      uploadInProgress := removeStr st.uploadInProgress name }

/-- The successful path of `loadSavedSource`: normalize the downloaded
catalog, tag it as file-sourced and store it with the same
replace-and-cap step. -/
def loadSavedSource (data : GogData) (st : StoreState) : StoreState :=
  let pruned := tagDownloads IngestTag.file (normalizeGogData data)
  { st with gogData := replaceCap pruned st.gogData }

/-- `removeSource(sourceName)`: drop the catalog and its saved-source
entries. -/
def removeSource (sourceName : Str) (st : StoreState) : StoreState :=
  { st with
      gogData := st.gogData.filter (fun g => decide (¬g.name = sourceName)),
      savedSources :=
        st.savedSources.filter (fun s => decide (¬s.name = sourceName)) }

/-- One data-store operation, with its host-supplied inputs. -/
inductive StoreOp where
  | add (data : GogData) (sourceUrl : Option Str) (nowIso : Str)
  | load (data : GogData)
  | remove (sourceName : Str)
  | finish (name : Str) (serverId : Option Str)

/-- Apply one operation. -/
def applyOp (st : StoreState) : StoreOp → StoreState
  | .add data sourceUrl nowIso => addGogData data sourceUrl nowIso st
  | .load data => loadSavedSource data st
  | .remove n => removeSource n st
  | .finish n id => finishUpload n id st

/-- The store after a sequence of operations from the initial state. -/
def runOps (ops : List StoreOp) : StoreState :=
  ops.foldl applyOp initialStoreState

/-- The catalog-list invariant of C9: at most 50 catalogs, pairwise
distinct names, at most 200 downloads each. -/
def Inv (st : StoreState) : Prop :=
  st.gogData.length ≤ MAX_GOG_SOURCES ∧
  st.gogData.Pairwise (fun a b => a.name ≠ b.name) ∧
  ∀ g ∈ st.gogData, g.downloads.length ≤ MAX_DOWNLOADS_PER_SOURCE

end DataStore

/-! DEFINSERT -/

/-! ## Theorems -/

namespace Js

/-! Basic lemmas about the string primitives. -/

theorem containsSub_of_isPrefixOf {n h : Str} (hp : n.isPrefixOf h = true) :
    containsSub n h = true := by
  cases h with
  | nil =>
    cases n with
    | nil => rfl
    | cons a t => simp [List.isPrefixOf] at hp
  | cons c t => simp [containsSub, hp]

theorem containsSub_cons_of {n : Str} {c : Char} {t : Str}
    (h : containsSub n t = true) : containsSub n (c :: t) = true := by
  simp [containsSub, h]

/-- If `n` is contained in `h`, it is contained in any extension `h ++ k`. -/
theorem isPrefixOf_append {n h k : Str} (hp : n.isPrefixOf h = true) :
    n.isPrefixOf (h ++ k) = true := by
  induction n generalizing h with
  | nil => simp [List.isPrefixOf]
  | cons a t ih =>
    cases h with
    | nil => simp [List.isPrefixOf] at hp
    | cons b s =>
      simp only [List.isPrefixOf, Bool.and_eq_true, beq_iff_eq] at hp ⊢
      exact ⟨hp.1, ih hp.2⟩

theorem containsSub_append_right {n h k : Str} (hc : containsSub n h = true) :
    containsSub n (h ++ k) = true := by
  induction h with
  | nil =>
    simp only [containsSub, List.isEmpty_iff] at hc
    subst hc
    cases k with
    | nil => rfl
    | cons c t => simp [containsSub, List.isPrefixOf]
  | cons c t ih =>
    simp only [containsSub, Bool.or_eq_true] at hc
    rcases hc with hp | hrec
    · exact containsSub_of_isPrefixOf (isPrefixOf_append hp)
    · exact containsSub_cons_of (ih hrec)

theorem containsSub_append_left {n h k : Str} (hc : containsSub n k = true) :
    containsSub n (h ++ k) = true := by
  induction h with
  | nil => simpa using hc
  | cons c t ih => exact containsSub_cons_of ih

/-- Transitivity: if `a` is contained in `b` and `b` in `c` then `a` is
contained in `c`. -/
theorem containsSub_trans {a b c : Str} (h1 : containsSub a b = true)
    (h2 : containsSub b c = true) : containsSub a c = true := by
  induction c generalizing b with
  | nil =>
    simp only [containsSub, List.isEmpty_iff] at h2
    subst h2
    simpa using h1
  | cons x t ih =>
    simp only [containsSub, Bool.or_eq_true] at h2
    rcases h2 with hp | hrec
    · -- b is a prefix of x :: t, hence x :: t = b ++ rest
      obtain ⟨rest, hr⟩ := List.isPrefixOf_iff_prefix.mp hp
      rw [← hr]
      exact containsSub_append_right h1
    · exact containsSub_cons_of (ih h1 hrec)

end Js


namespace Js

/-! Lemmas about run-collapsing and trimming. -/

theorem collapseRunsGo_nil {p : Char → Bool} {rep : Char} {b : Bool} :
    collapseRunsGo p rep b [] = [] := rfl

theorem collapseRunsGo_cons_pos_true {p : Char → Bool} {rep c : Char}
    {t : Str} (h : p c = true) :
    collapseRunsGo p rep true (c :: t) = collapseRunsGo p rep true t := by
  simp [collapseRunsGo, h]

theorem collapseRunsGo_cons_pos_false {p : Char → Bool} {rep c : Char}
    {t : Str} (h : p c = true) :
    collapseRunsGo p rep false (c :: t) = rep :: collapseRunsGo p rep true t := by
  simp [collapseRunsGo, h]

theorem collapseRunsGo_cons_neg {p : Char → Bool} {rep c : Char} {b : Bool}
    {t : Str} (h : p c = false) :
    collapseRunsGo p rep b (c :: t) = c :: collapseRunsGo p rep false t := by
  simp [collapseRunsGo, h]

theorem mem_collapseRunsGo {p : Char → Bool} {rep : Char} {c : Char} :
    ∀ {b : Bool} {l : Str}, c ∈ collapseRunsGo p rep b l →
      c = rep ∨ (c ∈ l ∧ p c = false) := by
  intro b l
  induction l generalizing b with
  | nil => intro h; rw [collapseRunsGo_nil] at h; simp at h
  | cons a t ih =>
    intro h
    by_cases ha : p a = true
    · cases b with
      | true =>
        rw [collapseRunsGo_cons_pos_true ha] at h
        rcases ih h with h1 | h2
        · exact Or.inl h1
        · exact Or.inr ⟨List.mem_cons_of_mem _ h2.1, h2.2⟩
      | false =>
        rw [collapseRunsGo_cons_pos_false ha, List.mem_cons] at h
        rcases h with h1 | h1
        · exact Or.inl h1
        · rcases ih h1 with h2 | h3
          · exact Or.inl h2
          · exact Or.inr ⟨List.mem_cons_of_mem _ h3.1, h3.2⟩
    · rw [collapseRunsGo_cons_neg (by simpa using ha), List.mem_cons] at h
      rcases h with h1 | h1
      · subst h1
        exact Or.inr ⟨List.mem_cons_self _ _, by simpa using ha⟩
      · rcases ih h1 with h2 | h3
        · exact Or.inl h2
        · exact Or.inr ⟨List.mem_cons_of_mem _ h3.1, h3.2⟩

theorem head_collapseRunsGo_true {p : Char → Bool} {rep : Char} :
    ∀ {l : Str}, ∀ x ∈ (collapseRunsGo p rep true l).head?, p x = false := by
  intro l
  induction l with
  | nil => intro x hx; rw [collapseRunsGo_nil] at hx; simp at hx
  | cons a t ih =>
    intro x hx
    by_cases ha : p a = true
    · rw [collapseRunsGo_cons_pos_true ha] at hx
      exact ih x hx
    · rw [collapseRunsGo_cons_neg (by simpa using ha)] at hx
      simp only [List.head?_cons, Option.mem_def, Option.some.injEq] at hx
      subst hx
      simpa using ha

theorem sepOk_collapseRunsGo {p : Char → Bool} {rep : Char} :
    ∀ (b : Bool) (l : Str), sepOk p (collapseRunsGo p rep b l) := by
  intro b l
  induction l generalizing b with
  | nil => rw [collapseRunsGo_nil]; exact List.chain'_nil
  | cons a t ih =>
    by_cases ha : p a = true
    · cases b with
      | true => rw [collapseRunsGo_cons_pos_true ha]; exact ih true
      | false =>
        rw [collapseRunsGo_cons_pos_false ha]
        refine (List.chain'_cons').mpr ⟨?_, ih true⟩
        intro y hy
        have := @head_collapseRunsGo_true p rep _ y hy
        simp [this]
    · rw [collapseRunsGo_cons_neg (by simpa using ha)]
      refine (List.chain'_cons').mpr ⟨?_, ih false⟩
      intro y _
      simp only [Bool.not_eq_true] at ha
      simp [ha]

theorem collapseRunsGo_eq_self_of_none {p : Char → Bool} {rep : Char} :
    ∀ (b : Bool) {l : Str}, (∀ c ∈ l, p c = false) →
      collapseRunsGo p rep b l = l := by
  intro b l
  induction l generalizing b with
  | nil => intro _; rfl
  | cons a t ih =>
    intro h
    have ha : p a = false := h a (List.mem_cons_self _ _)
    rw [collapseRunsGo_cons_neg ha]
    exact congrArg (a :: ·) (ih false fun c hc => h c (List.mem_cons_of_mem _ hc))

theorem collapseRunsGo_eq_self {p : Char → Bool} {rep : Char} :
    ∀ (b : Bool) {l : Str}, (∀ c ∈ l, p c = true → c = rep) → sepOk p l →
      (b = true → ∀ x ∈ l.head?, p x = false) →
      collapseRunsGo p rep b l = l := by
  intro b l
  induction l generalizing b with
  | nil => intro _ _ _; rfl
  | cons a t ih =>
    intro hall hadj hhead
    by_cases ha : p a = true
    · have hb : b = false := by
        cases b with
        | false => rfl
        | true =>
          have := hhead rfl a (by simp)
          rw [this] at ha
          exact absurd ha (by simp)
      subst hb
      have harep : a = rep := hall a (List.mem_cons_self _ _) ha
      rw [collapseRunsGo_cons_pos_false ha, harep]
      refine congrArg (rep :: ·) (ih true ?_ ?_ ?_)
      · exact fun c hc => hall c (List.mem_cons_of_mem _ hc)
      · exact ((List.chain'_cons').mp hadj).2
      · intro _ x hx
        have hr := ((List.chain'_cons').mp hadj).1 x hx
        by_cases hpx : p x = true
        · exact absurd ⟨ha, hpx⟩ hr
        · simpa using hpx
    · rw [collapseRunsGo_cons_neg (by simpa using ha)]
      refine congrArg (a :: ·) (ih false ?_ ?_ (by simp))
      · exact fun c hc => hall c (List.mem_cons_of_mem _ hc)
      · exact ((List.chain'_cons').mp hadj).2

theorem head_dropWhile {p : Char → Bool} :
    ∀ {l : Str}, ∀ x ∈ (l.dropWhile p).head?, p x = false := by
  intro l
  induction l with
  | nil => intro x hx; simp at hx
  | cons a t ih =>
    intro x hx
    by_cases ha : p a = true
    · rw [List.dropWhile_cons_of_pos ha] at hx
      exact ih x hx
    · rw [List.dropWhile_cons_of_neg (by simpa using ha)] at hx
      simp only [List.head?_cons, Option.mem_def, Option.some.injEq] at hx
      subst hx
      simpa using ha

theorem dropWhile_eq_self_of_head {p : Char → Bool} {l : Str}
    (h : ∀ x ∈ l.head?, p x = false) : l.dropWhile p = l := by
  cases l with
  | nil => rfl
  | cons a t =>
    have := h a (by simp)
    rw [List.dropWhile_cons_of_neg (by simp [this])]

theorem getLast?_dropWhile {p : Char → Bool} :
    ∀ {l : Str}, l.dropWhile p ≠ [] → (l.dropWhile p).getLast? = l.getLast? := by
  intro l
  induction l with
  | nil => intro h; simp at h
  | cons a t ih =>
    intro h
    by_cases ha : p a = true
    · rw [List.dropWhile_cons_of_pos ha] at h ⊢
      rw [ih h]
      cases t with
      | nil => rw [List.dropWhile_nil] at h; exact absurd rfl h
      | cons b s => simp [List.getLast?_cons_cons]
    · rw [List.dropWhile_cons_of_neg (by simpa using ha)]

theorem mem_jsTrim {l : Str} {c : Char} (h : c ∈ jsTrim l) : c ∈ l := by
  unfold jsTrim trimStart at h
  rw [List.mem_reverse] at h
  have h2 := List.dropWhile_subset (l := (l.dropWhile jsSpace).reverse) jsSpace h
  rw [List.mem_reverse] at h2
  exact List.dropWhile_subset jsSpace h2

theorem head_jsTrim {l : Str} : ∀ x ∈ (jsTrim l).head?, jsSpace x = false := by
  intro x hx
  unfold jsTrim trimStart at hx
  rw [List.head?_reverse] at hx
  by_cases hne : ((l.dropWhile jsSpace).reverse.dropWhile jsSpace) = []
  · rw [hne] at hx; simp at hx
  · rw [getLast?_dropWhile hne, List.getLast?_reverse] at hx
    exact head_dropWhile x hx

theorem getLast_jsTrim {l : Str} :
    ∀ x ∈ (jsTrim l).getLast?, jsSpace x = false := by
  intro x hx
  unfold jsTrim trimStart at hx
  rw [List.getLast?_reverse] at hx
  exact head_dropWhile x hx

theorem jsTrim_eq_self {l : Str} (h1 : ∀ x ∈ l.head?, jsSpace x = false)
    (h2 : ∀ x ∈ l.getLast?, jsSpace x = false) : jsTrim l = l := by
  unfold jsTrim trimStart
  rw [dropWhile_eq_self_of_head h1]
  rw [dropWhile_eq_self_of_head (by simpa using h2)]
  exact List.reverse_reverse l

theorem sepOk_reverse {p : Char → Bool} {l : Str} (h : sepOk p l) :
    sepOk p l.reverse := by
  unfold sepOk at h ⊢
  rw [List.chain'_reverse]
  refine h.imp ?_
  intro a b hab
  simp only [flip]
  intro hc
  exact hab ⟨hc.2, hc.1⟩

theorem sepOk_dropWhile {p q : Char → Bool} {l : Str} (h : sepOk p l) :
    sepOk p (l.dropWhile q) :=
  h.suffix (List.dropWhile_suffix q)

theorem sepOk_jsTrim {p : Char → Bool} {l : Str} (h : sepOk p l) :
    sepOk p (jsTrim l) := by
  unfold jsTrim trimStart
  exact sepOk_reverse (sepOk_dropWhile (sepOk_reverse (sepOk_dropWhile h)))

end Js

namespace Utils

open Js

/-! Character-table lemmas for the normalizer. -/

theorem tableLookup_mem {α : Type} {c : Char} {v : α} :
    ∀ {tbl : List (Char × α)}, tableLookup c tbl = some v → (c, v) ∈ tbl := by
  intro tbl
  induction tbl with
  | nil => intro h; simp [tableLookup] at h
  | cons p t ih =>
    intro h
    by_cases hc : c = p.1
    · rw [tableLookup, if_pos hc] at h
      have hv : p.2 = v := by injection h
      rw [← hv, hc]
      exact List.mem_cons_self _ _
    · rw [tableLookup, if_neg hc] at h
      exact List.mem_cons_of_mem _ (ih h)

set_option maxRecDepth 4096 in
/-- Every decomposition of a lowered table character consists of canonical,
lowercase atoms. -/
theorem lowerTable_atoms : ∀ p ∈ lowerTable, ∀ d ∈ nfdChar p.2,
    tableLookup d lowerTable = none ∧ tableLookup d nfdTable = none := by decide

set_option maxRecDepth 4096 in
/-- Every decomposition in the NFD table consists of canonical, lowercase
atoms. -/
theorem nfdTable_atoms : ∀ p ∈ nfdTable, ∀ d ∈ p.2,
    tableLookup d lowerTable = none ∧ tableLookup d nfdTable = none := by decide

theorem jsToLower_eq_self {c : Char} (h : tableLookup c lowerTable = none) :
    jsToLower c = c := by simp [jsToLower, h]

theorem nfdChar_eq_self {c : Char} (h : tableLookup c nfdTable = none) :
    nfdChar c = [c] := by simp [nfdChar, h]

/-- Every character produced by lowering-then-decomposing is an atom fixed
by both lowering and decomposition. -/
theorem lower_nfd_atom (c : Char) :
    ∀ d ∈ nfdChar (jsToLower c), jsToLower d = d ∧ nfdChar d = [d] := by
  cases h : tableLookup c lowerTable with
  | some c0 =>
    intro d hd
    have hlc : jsToLower c = c0 := by simp [jsToLower, h]
    rw [hlc] at hd
    have h2 := lowerTable_atoms (c, c0) (tableLookup_mem h) d hd
    exact ⟨jsToLower_eq_self h2.1, nfdChar_eq_self h2.2⟩
  | none =>
    have hlc : jsToLower c = c := jsToLower_eq_self h
    rw [hlc]
    cases h2 : tableLookup c nfdTable with
    | some l =>
      intro d hd
      have hnc : nfdChar c = l := by simp [nfdChar, h2]
      rw [hnc] at hd
      have h3 := nfdTable_atoms (c, l) (tableLookup_mem h2) d hd
      exact ⟨jsToLower_eq_self h3.1, nfdChar_eq_self h3.2⟩
    | none =>
      intro d hd
      rw [nfdChar_eq_self h2] at hd
      simp only [List.mem_singleton] at hd
      subst hd
      exact ⟨hlc, nfdChar_eq_self h2⟩

theorem mem_nfdStr {l : Str} {c : Char} (h : c ∈ nfdStr l) :
    ∃ d ∈ l, c ∈ nfdChar d := by
  induction l with
  | nil => simp [nfdStr] at h
  | cons a t ih =>
    rw [nfdStr, List.mem_append] at h
    rcases h with h1 | h1
    · exact ⟨a, List.mem_cons_self _ _, h1⟩
    · obtain ⟨d, hd, hc⟩ := ih h1
      exact ⟨d, List.mem_cons_of_mem _ hd, hc⟩

theorem nfdStr_eq_self {l : Str} (h : ∀ c ∈ l, nfdChar c = [c]) :
    nfdStr l = l := by
  induction l with
  | nil => rfl
  | cons a t ih =>
    rw [nfdStr, h a (List.mem_cons_self _ _)]
    exact congrArg (a :: ·) (ih fun c hc => h c (List.mem_cons_of_mem _ hc))

theorem normalizeStr_eq {s : Str} (hs : s ≠ []) :
    normalizeStr s =
      jsTrim (collapseRuns jsSpace ' '
        ((collapseRuns hyphChar ' '
          ((nfdStr (s.map jsToLower)).filter (fun c => !isCombining c))).filter
            keepChar)) := by
  simp only [normalizeStr, normalizeText]
  rw [if_neg hs]

theorem normalizeStr_def (s : Str) :
    normalizeText (some s) = normalizeStr s := rfl

/-- Each character of a normalized string is either a plain space or a
kept, mark-free, hyphen-free atom arising from lowering-then-decomposing
some character. -/
theorem mem_normalizeStr {s : Str} {c : Char} (h : c ∈ normalizeStr s) :
    c = ' ' ∨ (keepChar c = true ∧ isCombining c = false ∧ hyphChar c = false ∧
      ∃ d, c ∈ nfdChar (jsToLower d)) := by
  by_cases hs : s = []
  · simp [hs, normalizeStr, normalizeText] at h
  · rw [normalizeStr_eq hs] at h
    have h1 := mem_jsTrim h
    rcases mem_collapseRunsGo h1 with h2 | ⟨h2, _⟩
    · exact Or.inl h2
    · rw [List.mem_filter] at h2
      rcases mem_collapseRunsGo h2.1 with h3 | ⟨h3, hhy⟩
      · exact Or.inl h3
      · rw [List.mem_filter] at h3
        obtain ⟨d0, hd0, hc0⟩ := mem_nfdStr h3.1
        obtain ⟨e, _, rfl⟩ := List.mem_map.mp hd0
        refine Or.inr ⟨h2.2, by simpa using h3.2, hhy, e, hc0⟩

/-- `normalizeText` is idempotent (claim C6 work-horse). -/
theorem normalizeText_idem (x : Option Str) :
    normalizeText (some (normalizeText x)) = normalizeText x := by
  cases x with
  | none =>
    show normalizeText (some []) = []
    rfl
  | some s =>
    by_cases hs : s = []
    · subst hs; rfl
    · -- the normalized output and its character-level facts
      have hout := normalizeStr_eq hs
      show normalizeText (some (normalizeStr s)) = normalizeStr s
      by_cases h0 : normalizeStr s = []
      · rw [h0]; rfl
      · have hfix : ∀ c ∈ normalizeStr s, jsToLower c = c ∧ nfdChar c = [c] := by
          intro c hc
          rcases mem_normalizeStr hc with rfl | ⟨_, _, _, d, hd⟩
          · exact ⟨by decide, by decide⟩
          · exact lower_nfd_atom d c hd
        have hkeep : ∀ c ∈ normalizeStr s, keepChar c = true := by
          intro c hc
          rcases mem_normalizeStr hc with rfl | ⟨h1, _, _, _⟩
          · decide
          · exact h1
        have hcomb : ∀ c ∈ normalizeStr s, isCombining c = false := by
          intro c hc
          rcases mem_normalizeStr hc with rfl | ⟨_, h1, _, _⟩
          · decide
          · exact h1
        have hhyph : ∀ c ∈ normalizeStr s, hyphChar c = false := by
          intro c hc
          rcases mem_normalizeStr hc with rfl | ⟨_, _, h1, _⟩
          · decide
          · exact h1
        have hspace : ∀ c ∈ normalizeStr s, jsSpace c = true → c = ' ' := by
          intro c hc hsp
          rw [hout] at hc
          have h1 := mem_jsTrim hc
          rcases mem_collapseRunsGo h1 with h2 | ⟨_, h2⟩
          · exact h2
          · rw [hsp] at h2; exact absurd h2 (by simp)
        have hadj : sepOk jsSpace (normalizeStr s) := by
          rw [hout]
          exact sepOk_jsTrim (sepOk_collapseRunsGo false _)
        have hhead : ∀ x ∈ (normalizeStr s).head?, jsSpace x = false := by
          rw [hout]; exact head_jsTrim
        have hlast : ∀ x ∈ (normalizeStr s).getLast?, jsSpace x = false := by
          rw [hout]; exact getLast_jsTrim
        -- run the pipeline a second time; every stage is the identity
        show normalizeStr (normalizeStr s) = normalizeStr s
        rw [normalizeStr_eq h0]
        rw [List.map_congr_left (fun c hc => (hfix c hc).1), List.map_id']
        rw [nfdStr_eq_self (fun c hc => (hfix c hc).2)]
        rw [show List.filter (fun c => !isCombining c) (normalizeStr s) =
            normalizeStr s from
          List.filter_eq_self.mpr (fun c hc => by simp [hcomb c hc])]
        rw [show collapseRuns hyphChar ' ' (normalizeStr s) = normalizeStr s from
          collapseRunsGo_eq_self_of_none false hhyph]
        rw [show List.filter keepChar (normalizeStr s) = normalizeStr s from
          List.filter_eq_self.mpr hkeep]
        rw [show collapseRuns jsSpace ' ' (normalizeStr s) = normalizeStr s from
          collapseRunsGo_eq_self false hspace hadj (by simp)]
        exact jsTrim_eq_self hhead hlast

end Utils

namespace TypesMod

open Js

/-! Lemmas about the `Set`-style accumulation used by synonym expansion. -/

theorem foldl_preserve {α β : Type} (f : α → β → α) (P : α → Prop)
    (h : ∀ a b, P a → P (f a b)) :
    ∀ (l : List β) (a : α), P a → P (l.foldl f a) := by
  intro l
  induction l with
  | nil => intro a ha; exact ha
  | cons x t ih => intro a ha; exact ih (f a x) (h a x ha)

theorem nodup_addUnique {acc : List Str} {s : Str} (h : acc.Nodup) :
    (addUnique acc s).Nodup := by
  unfold addUnique
  by_cases hc : acc.contains s
  · rw [if_pos hc]; exact h
  · rw [if_neg hc]
    rw [List.nodup_append]
    refine ⟨h, List.nodup_singleton s, ?_⟩
    intro a ha hb
    rw [List.mem_singleton] at hb
    subst hb
    exact hc (List.elem_iff.mpr ha)

theorem mem_addUnique_of {acc : List Str} {s a : Str} (h : a ∈ acc) :
    a ∈ addUnique acc s := by
  unfold addUnique
  by_cases hc : acc.contains s
  · rw [if_pos hc]; exact h
  · rw [if_neg hc]; exact List.mem_append_left _ h

theorem mem_addUnique_self (acc : List Str) (s : Str) : s ∈ addUnique acc s := by
  unfold addUnique
  by_cases hc : acc.contains s
  · rw [if_pos hc]
    exact List.elem_iff.mp hc
  · rw [if_neg hc]
    exact List.mem_append_right _ (List.mem_singleton.mpr rfl)

theorem nodup_addAll {acc : List Str} {xs : List Str} (h : acc.Nodup) :
    (addAll acc xs).Nodup :=
  foldl_preserve addUnique List.Nodup (fun _ _ ha => nodup_addUnique ha) xs acc h

theorem mem_addAll_of {acc : List Str} {xs : List Str} {a : Str} (h : a ∈ acc) :
    a ∈ addAll acc xs :=
  foldl_preserve addUnique (a ∈ ·) (fun _ _ ha => mem_addUnique_of ha) xs acc h

theorem mem_addAll_self {xs : List Str} {a : Str} (h : a ∈ xs) :
    ∀ acc, a ∈ addAll acc xs := by
  induction xs with
  | nil => simp at h
  | cons x t ih =>
    intro acc
    rcases List.mem_cons.mp h with rfl | h2
    · exact @mem_addAll_of (addUnique acc a) t a (mem_addUnique_self acc a)
    · exact ih h2 _

/-- One term's expansion step preserves `Nodup`. -/
theorem nodup_expandStep (term : Str) {acc : List Str} (h : acc.Nodup) :
    (SYNONYMS_MAP.foldl (fun (expanded : List Str) (kv : Str × List Str) =>
      if kv.2.contains term then addAll (addUnique expanded kv.1) kv.2
      else expanded)
      (match mapLookup term SYNONYMS_MAP with
       | some directSynonyms => addAll acc directSynonyms
       | none => acc)).Nodup := by
  have hbase : (match mapLookup term SYNONYMS_MAP with
       | some directSynonyms => addAll acc directSynonyms
       | none => acc).Nodup := by
    cases mapLookup term SYNONYMS_MAP with
    | some l => exact nodup_addAll h
    | none => exact h
  refine foldl_preserve _ List.Nodup ?_ _ _ hbase
  intro a kv ha
  by_cases hc : kv.2.contains term
  · rw [if_pos hc]; exact nodup_addAll (nodup_addUnique ha)
  · rw [if_neg hc]; exact ha

/-- One term's expansion step preserves membership. -/
theorem mem_expandStep (term : Str) {acc : List Str} {a : Str} (h : a ∈ acc) :
    a ∈ SYNONYMS_MAP.foldl (fun (expanded : List Str) (kv : Str × List Str) =>
      if kv.2.contains term then addAll (addUnique expanded kv.1) kv.2
      else expanded)
      (match mapLookup term SYNONYMS_MAP with
       | some directSynonyms => addAll acc directSynonyms
       | none => acc) := by
  have hbase : a ∈ (match mapLookup term SYNONYMS_MAP with
       | some directSynonyms => addAll acc directSynonyms
       | none => acc) := by
    cases mapLookup term SYNONYMS_MAP with
    | some l => exact mem_addAll_of h
    | none => exact h
  refine foldl_preserve _ (a ∈ ·) ?_ _ _ hbase
  intro b kv hb
  by_cases hc : kv.2.contains term
  · rw [if_pos hc]; exact mem_addAll_of (mem_addUnique_of hb)
  · rw [if_neg hc]; exact hb

end TypesMod

/-- C5 (amended): synonym expansion under the fixed table produces a list
without duplicate terms and containing every input term (hence re-applying
it can only extend the term set); it is, however, not idempotent. -/
theorem expandSearchTerms_nodup_extensive_C5 (ts : List Js.Str) :
    (TypesMod.expandSearchTermsWithSynonyms ts).Nodup ∧
      ∀ t ∈ ts, t ∈ TypesMod.expandSearchTermsWithSynonyms ts := by
  constructor
  · refine TypesMod.foldl_preserve _ List.Nodup ?_ ts _ (TypesMod.nodup_addAll List.nodup_nil)
    intro a b ha
    exact TypesMod.nodup_expandStep b ha
  · intro t ht
    refine TypesMod.foldl_preserve _ (t ∈ ·) ?_ ts _ (TypesMod.mem_addAll_self ht [])
    intro a b ha
    exact TypesMod.mem_expandStep b ha

/-- C5 witness: the amended theorem at the concrete input `["skyrim"]`. -/
theorem expandSearchTerms_C5_witness :
    (TypesMod.expandSearchTermsWithSynonyms [Js.str "skyrim"]).Nodup ∧
      Js.str "skyrim" ∈ TypesMod.expandSearchTermsWithSynonyms [Js.str "skyrim"] :=
  ⟨(expandSearchTerms_nodup_extensive_C5 [Js.str "skyrim"]).1,
   (expandSearchTerms_nodup_extensive_C5 [Js.str "skyrim"]).2 (Js.str "skyrim")
     (List.mem_singleton.mpr rfl)⟩

set_option maxRecDepth 8192 in
/-- C5 counterexample: expansion is not idempotent under the fixed table —
expanding the expansion of `["skyrim"]` adds the new term `"vault"`
(via `skyrim → bethesda → fallout → vault`), so applying the function to
its own output does not yield the same set of terms. -/
theorem expandSearchTerms_C5_counterexample :
    Js.str "vault" ∈ TypesMod.expandSearchTermsWithSynonyms
        (TypesMod.expandSearchTermsWithSynonyms [Js.str "skyrim"]) ∧
      Js.str "vault" ∉ TypesMod.expandSearchTermsWithSynonyms [Js.str "skyrim"] := by
  exact ⟨by decide, by decide⟩

/-- C6: `normalizeText` is idempotent — for every string `x`,
`normalizeText(normalizeText(x))` equals `normalizeText(x)` — and for
absent (`undefined`) or empty input it returns the empty string rather
than failing. -/
theorem normalizeText_idem_safe_C6 :
    (∀ x : Js.Str, Utils.normalizeText (some (Utils.normalizeText (some x))) =
      Utils.normalizeText (some x)) ∧
    Utils.normalizeText none = [] ∧ Utils.normalizeText (some []) = [] :=
  ⟨fun x => Utils.normalizeText_idem (some x), rfl, rfl⟩

namespace LRU

variable {K V : Type} [DecidableEq K]

/-! Lemmas about the association-list model of `Map`. -/

theorem mapFind_eq_none_of_not_mem {k : K} :
    ∀ {l : List (K × V)}, k ∉ l.map Prod.fst → mapFind k l = none := by
  intro l
  induction l with
  | nil => intro _; rfl
  | cons p t ih =>
    intro h
    rw [List.map_cons, List.mem_cons] at h
    push_neg at h
    rw [mapFind, if_neg h.1]
    exact ih h.2

theorem mapFind_of_mem_nodup {p : K × V} :
    ∀ {l : List (K × V)}, (l.map Prod.fst).Nodup → p ∈ l →
      mapFind p.1 l = some p.2 := by
  intro l
  induction l with
  | nil => intro _ h; simp at h
  | cons q t ih =>
    intro hnd hp
    rw [List.map_cons, List.nodup_cons] at hnd
    rcases List.mem_cons.mp hp with rfl | h2
    · rw [mapFind, if_pos rfl]
    · have hne : p.1 ≠ q.1 := by
        intro he
        exact hnd.1 (he ▸ List.mem_map_of_mem Prod.fst h2)
      rw [mapFind, if_neg hne]
      exact ih hnd.2 h2

theorem mapSet_fresh {k : K} {v : V} :
    ∀ {l : List (K × V)}, mapFind k l = none → mapSet k v l = l ++ [(k, v)] := by
  intro l
  induction l with
  | nil => intro _; rfl
  | cons p t ih =>
    intro h
    rw [mapFind] at h
    by_cases hk : k = p.1
    · rw [if_pos hk] at h; exact absurd h (by simp)
    · rw [if_neg hk] at h
      rw [mapSet, if_neg hk, ih h, List.cons_append]

theorem mapFind_append_none {k : K} {l₂ : List (K × V)} :
    ∀ {l₁ : List (K × V)}, mapFind k l₁ = none →
      mapFind k (l₁ ++ l₂) = mapFind k l₂ := by
  intro l₁
  induction l₁ with
  | nil => intro _; rfl
  | cons p t ih =>
    intro h
    rw [mapFind] at h
    by_cases hk : k = p.1
    · rw [if_pos hk] at h; exact absurd h (by simp)
    · rw [if_neg hk] at h
      rw [List.cons_append, mapFind, if_neg hk]
      exact ih h

theorem insertAll_append (c : LRUCache K V) (xs ys : List (K × V)) :
    insertAll c (xs ++ ys) =
      ((insertAll (insertAll c xs).1 ys).1,
       (insertAll c xs).2 ++ (insertAll (insertAll c xs).1 ys).2) := by
  induction xs generalizing c with
  | nil => simp [insertAll]
  | cons p t ih =>
    rw [List.cons_append, insertAll, insertAll, ih]
    simp [List.append_assoc]

/-- Inserting fresh, pairwise-distinct keys into a cache with enough spare
capacity appends them in order and evicts nothing. -/
theorem insertAll_fresh :
    ∀ (ps : List (K × V)) (c : LRUCache K V),
      (∀ p ∈ ps, mapFind p.1 c.cache = none) →
      ((ps.map Prod.fst).Nodup) →
      (c.cache.length + ps.length ≤ c.maxSize) →
      insertAll c ps =
        ({ c with cache := c.cache ++ ps,
                  accessOrder := c.accessOrder ++ ps.map Prod.fst }, []) := by
  intro ps
  induction ps with
  | nil => intro c _ _ _; simp [insertAll]
  | cons p t ih =>
    intro c hfresh hnd hcap
    have hp : mapFind p.1 c.cache = none := hfresh p (List.mem_cons_self _ _)
    have hlt : ¬(c.maxSize ≤ c.cache.length) := by
      rw [List.length_cons] at hcap
      omega
    rw [insertAll]
    have hset : set c p.1 p.2 =
        ({ c with cache := c.cache ++ [(p.1, p.2)],
                  accessOrder := c.accessOrder ++ [p.1] }, none) := by
      rw [set, if_neg (by simp [hp]), if_neg hlt, mapSet_fresh hp]
    rw [hset]
    rw [List.map_cons, List.nodup_cons] at hnd
    have hrec := ih { c with cache := c.cache ++ [(p.1, p.2)],
                             accessOrder := c.accessOrder ++ [p.1] }
      (by
        intro q hq
        have h1 : mapFind q.1 c.cache = none :=
          hfresh q (List.mem_cons_of_mem _ hq)
        rw [mapFind_append_none h1]
        rw [mapFind, if_neg ?_]
        · rfl
        · intro he
          exact hnd.1 (he ▸ List.mem_map_of_mem Prod.fst hq))
      hnd.2
      (by simp only [List.length_append, List.length_singleton]
          rw [List.length_cons] at hcap
          omega)
    rw [hrec]
    simp [List.append_assoc]

end LRU

namespace LRU

variable {K V : Type} [DecidableEq K]

/-- Overflow step: one further insertion into a full cache whose entries
were the fresh insertions `p0 :: dl` evicts exactly `p0`. -/
theorem set_overflow (m : Nat) (p0 q : K × V) (dl : List (K × V))
    (hfull : (p0 :: dl).length = m)
    (hnd : ((p0 :: dl ++ [q]).map Prod.fst).Nodup) :
    set (⟨p0 :: dl, m, (p0 :: dl).map Prod.fst⟩ : LRUCache K V) q.1 q.2 =
      (⟨dl ++ [q], m, (dl ++ [q]).map Prod.fst⟩, some p0) := by
  have hnd' : ((p0 :: dl).map Prod.fst).Nodup ∧
      q.1 ∉ (p0 :: dl).map Prod.fst := by
    rw [show p0 :: dl ++ [q] = (p0 :: dl) ++ [q] from rfl,
      List.map_append, List.nodup_append] at hnd
    exact ⟨hnd.1, fun hmem => hnd.2.2 hmem (by simp)⟩
  have hq : mapFind q.1 (p0 :: dl) = none :=
    mapFind_eq_none_of_not_mem hnd'.2
  have hfinddl : mapFind q.1 dl = none := by
    apply mapFind_eq_none_of_not_mem
    intro hmem
    exact hnd'.2 (List.mem_cons_of_mem _ (by simpa using hmem))
  rw [set, if_neg (by simp [hq]), if_pos (by rw [hfull])]
  simp only [List.map_cons]
  have herase : mapErase p0.1 (p0 :: dl) = dl := by
    rw [mapErase, if_pos rfl]
  have hp0find : mapFind p0.1 (p0 :: dl) = some p0.2 := by
    rw [mapFind, if_pos rfl]
  simp only [herase, hp0find, Option.map_some']
  rw [mapSet_fresh hfinddl]
  simp [List.map_append]

/-- C7: starting from an empty LRU cache of capacity `m` (`0 < m`, as the
constructor requires), inserting `m + 1` pairwise-distinct keys evicts
exactly the least-recently-touched key — the first one inserted — leaves
the other `m` keys retrievable with their values, and produces exactly one
eviction event, carrying the evicted key and its value. -/
theorem lru_eviction_C7 {K V : Type} [DecidableEq K] (m : Nat) (hm : 0 < m)
    (p0 : K × V) (rest : List (K × V))
    (hlen : (p0 :: rest).length = m + 1)
    (hnd : ((p0 :: rest).map Prod.fst).Nodup) :
    create m = some (⟨[], m, []⟩ : LRUCache K V) ∧
    (insertAll (⟨[], m, []⟩ : LRUCache K V) (p0 :: rest)).2 = [p0] ∧
    (get (insertAll (⟨[], m, []⟩ : LRUCache K V) (p0 :: rest)).1 p0.1).1 =
      none ∧
    ∀ p ∈ rest,
      (get (insertAll (⟨[], m, []⟩ : LRUCache K V) (p0 :: rest)).1 p.1).1 =
        some p.2 := by
  have hrest : rest ≠ [] := by
    intro h
    rw [h] at hlen
    simp at hlen
    omega
  -- decompose the insertions into the first `m` (which fit) and the last
  have hsplit : p0 :: rest = (p0 :: rest.dropLast) ++ [rest.getLast hrest] := by
    rw [List.cons_append, List.dropLast_append_getLast hrest]
  have hfrontlen : (p0 :: rest.dropLast).length = m := by
    rw [List.length_cons] at hlen ⊢
    rw [List.length_dropLast]
    omega
  have hndfull : (((p0 :: rest.dropLast) ++ [rest.getLast hrest]).map
      Prod.fst).Nodup := by rw [← hsplit]; exact hnd
  have hndfront : ((p0 :: rest.dropLast).map Prod.fst).Nodup := by
    rw [List.map_append, List.nodup_append] at hndfull
    exact hndfull.1
  have hfill := insertAll_fresh (K := K) (V := V) (p0 :: rest.dropLast)
    ⟨[], m, []⟩ (fun p _ => rfl) hndfront
    (by rw [hfrontlen]; simp)
  have hstep := set_overflow (K := K) (V := V) m p0 (rest.getLast hrest)
    rest.dropLast hfrontlen (by simpa using hndfull)
  have hfill' : insertAll (⟨[], m, []⟩ : LRUCache K V) (p0 :: rest.dropLast) =
      (⟨p0 :: rest.dropLast, m, (p0 :: rest.dropLast).map Prod.fst⟩, []) := by
    simpa using hfill
  have hrun : insertAll (⟨[], m, []⟩ : LRUCache K V) (p0 :: rest) =
      (⟨rest.dropLast ++ [rest.getLast hrest], m,
        (rest.dropLast ++ [rest.getLast hrest]).map Prod.fst⟩, [p0]) := by
    rw [hsplit, insertAll_append, hfill']
    simp only [insertAll, hstep]
    simp
  rw [hrun]
  have hback : rest.dropLast ++ [rest.getLast hrest] = rest :=
    List.dropLast_append_getLast hrest
  rw [hback]
  refine ⟨by rw [create, if_neg (by omega)], rfl, ?_, ?_⟩
  · have hp0 : mapFind p0.1 rest = none := by
      apply mapFind_eq_none_of_not_mem
      intro hmem
      rw [List.map_cons, List.nodup_cons] at hnd
      exact hnd.1 hmem
    rw [get]
    simp [hp0]
  · intro p hp
    have hfind : mapFind p.1 rest = some p.2 := by
      apply mapFind_of_mem_nodup _ hp
      rw [List.map_cons, List.nodup_cons] at hnd
      exact hnd.2
    rw [get]
    simp [hfind]

end LRU

/-- C7 witness: capacity 2, inserting the three distinct keys 1, 2, 3
evicts exactly key 1 with its value, keys 2 and 3 remain retrievable, and
the eviction-event trace is exactly that one pair. -/
theorem lru_eviction_C7_witness :
    LRU.create 2 = some (⟨[], 2, []⟩ : LRU.LRUCache Nat Nat) ∧
    (LRU.insertAll (⟨[], 2, []⟩ : LRU.LRUCache Nat Nat)
      ((1, 10) :: [(2, 20), (3, 30)])).2 = [(1, 10)] ∧
    (LRU.get (LRU.insertAll (⟨[], 2, []⟩ : LRU.LRUCache Nat Nat)
      ((1, 10) :: [(2, 20), (3, 30)])).1 (1, 10).1).1 = none ∧
    ∀ p ∈ [(2, 20), (3, 30)],
      (LRU.get (LRU.insertAll (⟨[], 2, []⟩ : LRU.LRUCache Nat Nat)
        ((1, 10) :: [(2, 20), (3, 30)])).1 p.1).1 = some p.2 :=
  LRU.lru_eviction_C7 2 (by decide) (1, 10) [(2, 20), (3, 30)] (by decide)
    (by decide)

/-- `Math.round 0 = 0`. -/
theorem jsRound_zero : DataStore.jsRound 0 = 0 := by
  unfold DataStore.jsRound
  norm_num

/-- C10 counterexample: on the input `"1.1 MB"` the engine's
`parseFileSize` returns `1.1 * 1024 ^ 2 = 1153433.6` bytes while the data
store's private `parseFileSize` returns `Math.round` of that,
`1153434` — a different byte count. -/
theorem parseFileSize_C10_counterexample :
    Search.parseFileSize (Js.str "1.1 MB") ≠
      DataStore.parseFileSize (some (Js.str "1.1 MB")) := by
  have hv : Search.parseFileSize (Js.str "1.1 MB") =
      some (((Search.digitsToNat (Js.str "1") : ℚ) +
        (Search.digitsToNat (Js.str "1") : ℚ) / 10 ^ (Js.str "1").length) *
          1024 ^ 2) := rfl
  have hw : DataStore.parseFileSize (some (Js.str "1.1 MB")) =
      some (DataStore.jsRound (((Search.digitsToNat (Js.str "1") : ℚ) +
        (Search.digitsToNat (Js.str "1") : ℚ) / 10 ^ (Js.str "1").length) *
          1024 ^ 2)) := rfl
  rw [hv, hw, show Search.digitsToNat (Js.str "1") = 1 from by decide,
    show (Js.str "1").length = 1 from by decide]
  push_cast
  have hval : ((1 : ℚ) + (1 : ℚ) / 10 ^ 1) * 1024 ^ 2 = 5767168 / 5 := by
    norm_num
  rw [hval]
  have hround : DataStore.jsRound (5767168 / 5) = 1153434 := by
    unfold DataStore.jsRound
    rw [show ((5767168 : ℚ) / 5 + 1 / 2 = 11534341 / 10) from by norm_num]
    rw [show ((1153434 : ℚ) = ((1153434 : ℤ) : ℚ)) from by norm_num]
    norm_num [Int.floor_eq_iff]
  rw [hround]
  intro h
  rw [Option.some.injEq] at h
  norm_num at h

/-- C10 (amended): the data store's private `parseFileSize` agrees with the
search engine's on every input size string up to a final `Math.round` —
the store rounds each branch's result while the engine does not. -/
theorem parseFileSize_refine_C10 (s : Js.Str) :
    DataStore.parseFileSize (some s) =
      (Search.parseFileSize s).map DataStore.jsRound := by
  simp only [DataStore.parseFileSize, Search.parseFileSize]
  by_cases h0 : s = [] ∨ s = Js.str "N/A"
  · rw [if_pos h0, if_pos h0, Option.map_some', jsRound_zero]
  · rw [if_neg h0, if_neg h0]
    cases hm : Search.matchDigits s with
    | none => rw [Option.map_some', jsRound_zero]
    | some m =>
      simp only []
      by_cases hg : Js.containsSub (Js.str "GB") s = true
      · rw [if_pos hg, if_pos hg, Option.map_map]
        rfl
      · rw [if_neg hg, if_neg hg]
        by_cases hmb : Js.containsSub (Js.str "MB") s = true
        · rw [if_pos hmb, if_pos hmb, Option.map_map]
          rfl
        · rw [if_neg hmb, if_neg hmb]
          by_cases hkb : Js.containsSub (Js.str "KB") s = true
          · rw [if_pos hkb, if_pos hkb, Option.map_map]
            rfl
          · rw [if_neg hkb, if_neg hkb]

namespace Search

open Js Types

/-! Lemmas relating `processAndDeduplicateDownloads` to the flattened
description used by claim C4. -/

/-- One named catalog's pass: the spec-side worker on the name-annotated
records equals the code-side filter-then-stamp pass. -/
theorem specGo_map_named {nm : Str} (hnm : nm ≠ []) :
    ∀ (downloads : List DownloadType) (seen : List Str),
      specDedupAmendedGo seen (downloads.map fun dl => (nm, dl)) =
        ((dedupOne seen downloads).2.map (stampRecord nm),
         (dedupOne seen downloads).1) := by
  intro downloads
  induction downloads with
  | nil => intro seen; rfl
  | cons dl rest ih =>
    intro seen
    rw [List.map_cons, specDedupAmendedGo, dedupOne]
    by_cases hinv : invalidTitle dl
    · rw [if_neg hnm, if_pos hinv, if_pos hinv]
      exact ih seen
    · rw [if_neg hnm, if_neg hinv, if_neg hinv]
      by_cases hkey : dl.title ++ ':' :: dl.uploadDate ∈ seen
      · simp only [hkey, if_pos]
        exact ih seen
      · simp only [hkey, if_neg, if_false]
        rw [ih ((dl.title ++ ':' :: dl.uploadDate) :: seen)]
        rfl

/-- An unnamed catalog's records are all skipped by the spec-side worker,
leaving the key set unchanged. -/
theorem specGo_map_unnamed :
    ∀ (downloads : List DownloadType) (seen : List Str),
      specDedupAmendedGo seen (downloads.map fun dl => (([] : Str), dl)) =
        ([], seen) := by
  intro downloads
  induction downloads with
  | nil => intro seen; rfl
  | cons dl rest ih =>
    intro seen
    rw [List.map_cons, specDedupAmendedGo, if_pos rfl]
    exact ih seen

/-- The spec-side worker distributes over appends. -/
theorem specGo_append :
    ∀ (xs ys : List (Str × DownloadType)) (seen : List Str),
      specDedupAmendedGo seen (xs ++ ys) =
        ((specDedupAmendedGo seen xs).1 ++
           (specDedupAmendedGo (specDedupAmendedGo seen xs).2 ys).1,
         (specDedupAmendedGo (specDedupAmendedGo seen xs).2 ys).2) := by
  intro xs
  induction xs with
  | nil => intro ys seen; rfl
  | cons x t ih =>
    intro ys seen
    rw [List.cons_append, specDedupAmendedGo, specDedupAmendedGo]
    by_cases h1 : x.1 = []
    · rw [if_pos h1, if_pos h1]
      exact ih ys seen
    · rw [if_neg h1, if_neg h1]
      by_cases h2 : invalidTitle x.2
      · rw [if_pos h2, if_pos h2]
        exact ih ys seen
      · rw [if_neg h2, if_neg h2]
        by_cases h3 : x.2.title ++ ':' :: x.2.uploadDate ∈ seen
        · simp only [h3, if_pos]
          exact ih ys seen
        · simp only [h3, if_neg, if_false]
          rw [ih ys ((x.2.title ++ ':' :: x.2.uploadDate) :: seen)]
          rfl

/-- The de-duplication pass equals the amended flattened description, for
any initial key set. -/
theorem processGo_eq_specAmended :
    ∀ (gogs : List GogData) (seen : List Str),
      processAndDeduplicateDownloadsGo seen gogs =
        (specDedupAmendedGo seen
          (gogs.flatMap fun g => g.downloads.map fun dl => (g.name, dl))).1 := by
  intro gogs
  induction gogs with
  | nil => intro seen; rfl
  | cons g rest ih =>
    intro seen
    rw [List.flatMap_cons, specGo_append, processAndDeduplicateDownloadsGo]
    by_cases hnm : g.name = []
    · rw [if_pos hnm]
      have h0 := specGo_map_unnamed g.downloads seen
      rw [hnm] at *
      rw [h0]
      simpa using ih seen
    · rw [if_neg hnm]
      rw [specGo_map_named hnm g.downloads seen]
      simpa using ih (dedupOne seen g.downloads).1

end Search

/-- C4 (amended): `processAndDeduplicateDownloads` flattens the catalogs'
download lists in order, drops every record whose title is empty or
whitespace-only or equals the corrupt-data sentinel and every record
belonging to a catalog whose name is empty, keeps only the first record
for each value of the concatenated key string `title:uploadDate` (which can
conflate distinct `(title, uploadDate)` pairs when a title contains a
colon), and stamps every surviving record with its owning catalog's name
as source and its parsed byte size. -/
theorem dedup_spec_C4 (gogs : List Types.GogData) :
    Search.processAndDeduplicateDownloads gogs = Search.specDedupAmended gogs :=
  Search.processGo_eq_specAmended gogs []

/-- C4 counterexample: the claim as stated fails — with a first catalog
named `"s"` holding the distinct pairs `("a:b", "c")` and `("a", "b:c")`
(which share the concatenated key `"a:b:c"`) and a second catalog with an
empty name holding a perfectly valid record, the code returns only the
first record, while the claimed pair-keyed, name-blind description keeps
all three. -/
theorem dedup_C4_counterexample :
    Search.processAndDeduplicateDownloads
        [⟨Js.str "s",
          [{ fileSize := [], uploadDate := Js.str "c", uris := [],
             title := Js.str "a:b" },
           { fileSize := [], uploadDate := Js.str "b:c", uris := [],
             title := Js.str "a" }]⟩,
         ⟨[], [{ fileSize := [], uploadDate := Js.str "d", uris := [],
                 title := Js.str "x" }]⟩] ≠
      Search.specDedupPair
        [⟨Js.str "s",
          [{ fileSize := [], uploadDate := Js.str "c", uris := [],
             title := Js.str "a:b" },
           { fileSize := [], uploadDate := Js.str "b:c", uris := [],
             title := Js.str "a" }]⟩,
         ⟨[], [{ fileSize := [], uploadDate := Js.str "d", uris := [],
                 title := Js.str "x" }]⟩] := by
  intro h
  have hl := congrArg List.length h
  rw [show (Search.processAndDeduplicateDownloads
        [⟨Js.str "s",
          [{ fileSize := [], uploadDate := Js.str "c", uris := [],
             title := Js.str "a:b" },
           { fileSize := [], uploadDate := Js.str "b:c", uris := [],
             title := Js.str "a" }]⟩,
         ⟨[], [{ fileSize := [], uploadDate := Js.str "d", uris := [],
                 title := Js.str "x" }]⟩]).length = 1 from by decide,
      show (Search.specDedupPair
        [⟨Js.str "s",
          [{ fileSize := [], uploadDate := Js.str "c", uris := [],
             title := Js.str "a:b" },
           { fileSize := [], uploadDate := Js.str "b:c", uris := [],
             title := Js.str "a" }]⟩,
         ⟨[], [{ fileSize := [], uploadDate := Js.str "d", uris := [],
                 title := Js.str "x" }]⟩]).length = 3 from by decide] at hl
  exact absurd hl (by decide)

namespace Js

theorem containsSub_of_isPrefixOf_drop {n s : Str} {i : Nat}
    (h : n.isPrefixOf (s.drop i) = true) : containsSub n s = true := by
  have h1 : containsSub n (s.drop i) = true := containsSub_of_isPrefixOf h
  have h2 := containsSub_append_left (h := s.take i) h1
  rwa [List.take_append_drop] at h2

end Js

namespace Search

open Js Utils TypesMod Types

/-- A successful word-boundary regex test implies plain substring
containment, when both strings are fixed by case-folding. -/
theorem regexTermTest_imp_containsSub {term text : Str}
    (hlt : ∀ c ∈ term, jsToLower c = c) (hlx : ∀ c ∈ text, jsToLower c = c)
    (h : regexTermTest term text = true) : containsSub term text = true := by
  unfold regexTermTest at h
  rw [List.map_congr_left hlt, List.map_id',
    List.map_congr_left hlx, List.map_id'] at h
  rw [List.any_eq_true] at h
  obtain ⟨i, _, hp⟩ := h
  rw [Bool.and_eq_true, Bool.and_eq_true] at hp
  exact containsSub_of_isPrefixOf_drop hp.1.1

theorem mem_splitOnCharGo {sep : Char} {w : Str} :
    ∀ {l : Str} (acc : Str), w ∈ splitOnCharGo sep acc l →
      containsSub w (acc.reverse ++ l) = true := by
  intro l
  induction l with
  | nil =>
    intro acc h
    rw [splitOnCharGo, List.mem_singleton] at h
    subst h
    rw [List.append_nil]
    exact containsSub_of_isPrefixOf (by simp [List.isPrefixOf_iff_prefix])
  | cons c t ih =>
    intro acc h
    rw [splitOnCharGo] at h
    by_cases hc : c = sep
    · rw [if_pos hc, List.mem_cons] at h
      rcases h with rfl | h2
      · exact containsSub_append_right
          (containsSub_of_isPrefixOf (by simp [List.isPrefixOf_iff_prefix]))
      · have h3 := ih [] h2
        rw [List.reverse_nil, List.nil_append] at h3
        exact containsSub_append_left (containsSub_cons_of h3)
    · rw [if_neg hc] at h
      have h2 := ih (c :: acc) h
      rw [List.reverse_cons, List.append_assoc] at h2
      simpa using h2

/-- Every word of a record's word list occurs in its padded search
text. -/
theorem mem_words_containsSub {item : DownloadType} {w : Str}
    (h : w ∈ (computeSearchData item).words) :
    containsSub w (computeSearchData item).searchText = true := by
  unfold computeSearchData at h ⊢
  simp only at h ⊢
  by_cases hlen : (jsTrim (collapseRuns jsSpace ' '
      (jsOr item.titleNormalized (normalizeStr item.title) ++
        ' ' :: jsOr item.sourceNormalized
          (match item.source with
           | some s => if s = [] then [] else normalizeStr s
           | none => [])))).length > 0
  · rw [if_pos hlen] at h
    rw [List.mem_filter] at h
    have h2 := mem_splitOnCharGo [] h.1
    rw [List.reverse_nil, List.nil_append] at h2
    exact containsSub_cons_of (containsSub_append_right h2)
  · rw [if_neg hlen] at h
    simp at h

/-- C1: for every record and every search term (both already in the
lower-cased form the pipeline produces), `scoreForTerm` returns exactly
the tiered values of the specification, as captured by
`specScoreForTerm`. -/
theorem scoreForTerm_spec_C1 (item : DownloadType) (term : Str)
    (hlt : ∀ c ∈ term, jsToLower c = c)
    (hlx : ∀ c ∈ (computeSearchData item).searchText, jsToLower c = c) :
    scoreForTerm (computeSearchData item).searchText
        (computeSearchData item).words term =
      specScoreForTerm (computeSearchData item).searchText
        (computeSearchData item).words term := by
  unfold scoreForTerm specScoreForTerm
  by_cases h3 : term.length < 3
  · rw [if_pos h3, if_pos h3]
  · rw [if_neg h3, if_neg h3]
    by_cases hc : containsSub term (computeSearchData item).searchText = true
    · rw [if_pos hc]
      by_cases hr : regexTermTest term (computeSearchData item).searchText = true
      · rw [if_pos hr, if_pos hr]
      · rw [if_neg hr, if_neg hr]
        by_cases ha : ((computeSearchData item).words.any
            (fun w => term.isPrefixOf w)) = true
        · rw [if_pos ha, if_pos ha]
        · rw [if_neg ha, if_neg ha]
          cases hfind : (computeSearchData item).words.find?
              (fun w => containsSub term w && decide (¬w = term)) with
          | some w => simp only [hfind]
          | none =>
            simp only [hfind]
            rw [if_pos hc]
    · rw [if_neg hc]
      have hr : ¬regexTermTest term (computeSearchData item).searchText = true := by
        intro h
        exact hc (regexTermTest_imp_containsSub hlt hlx h)
      rw [if_neg hr]
      have ha : ¬((computeSearchData item).words.any
          (fun w => term.isPrefixOf w) = true) := by
        intro h
        rw [List.any_eq_true] at h
        obtain ⟨w, hw, hp⟩ := h
        exact hc (containsSub_trans (containsSub_of_isPrefixOf hp)
          (mem_words_containsSub hw))
      rw [if_neg ha]
      cases hfind : (computeSearchData item).words.find?
          (fun w => containsSub term w && decide (¬w = term)) with
      | some w =>
        have hmem := List.mem_of_find?_eq_some hfind
        have hpred := List.find?_some hfind
        rw [Bool.and_eq_true] at hpred
        exact absurd (containsSub_trans hpred.1 (mem_words_containsSub hmem))
          hc
      | none => rw [if_neg hc]

end Search

/-- C1 witness: the term `"star"` against a record whose normalized title
is `"star wars"` is a whole-word match, and both sides of C1 give 100. -/
theorem scoreForTerm_C1_witness :
    (∀ c ∈ Js.str "star", Utils.jsToLower c = c) ∧
    Search.scoreForTerm
        (Search.computeSearchData
          { fileSize := [], uploadDate := [], uris := [],
            title := Js.str "Star Wars",
            titleNormalized := some (Js.str "star wars") }).searchText
        (Search.computeSearchData
          { fileSize := [], uploadDate := [], uris := [],
            title := Js.str "Star Wars",
            titleNormalized := some (Js.str "star wars") }).words
        (Js.str "star") =
      Search.specScoreForTerm
        (Search.computeSearchData
          { fileSize := [], uploadDate := [], uris := [],
            title := Js.str "Star Wars",
            titleNormalized := some (Js.str "star wars") }).searchText
        (Search.computeSearchData
          { fileSize := [], uploadDate := [], uris := [],
            title := Js.str "Star Wars",
            titleNormalized := some (Js.str "star wars") }).words
        (Js.str "star") :=
  ⟨by decide,
   Search.scoreForTerm_spec_C1
     { fileSize := [], uploadDate := [], uris := [],
       title := Js.str "Star Wars",
       titleNormalized := some (Js.str "star wars") }
     (Js.str "star") (by decide) (by decide)⟩

namespace Search

open Js Utils Types

/-! Comparator lemmas for the ranking claim. -/

theorem lexCmp_total : ∀ a b : Str, lexCmp a b ≤ 0 ∨ lexCmp b a ≤ 0 := by
  intro a
  induction a with
  | nil =>
    intro b
    cases b with
    | nil => left; rw [lexCmp]
    | cons c t => left; rw [lexCmp]; omega
  | cons x s ih =>
    intro b
    cases b with
    | nil => right; rw [lexCmp]; omega
    | cons y t =>
      rcases lt_trichotomy x y with h | h | h
      · left
        rw [lexCmp, if_pos h]
        omega
      · subst h
        rw [lexCmp, if_neg (lt_irrefl x), if_neg (lt_irrefl x),
          lexCmp, if_neg (lt_irrefl x), if_neg (lt_irrefl x)]
        exact ih t
      · right
        rw [lexCmp, if_pos h]
        omega

theorem lexCmp_trans : ∀ a b c : Str, lexCmp a b ≤ 0 → lexCmp b c ≤ 0 →
    lexCmp a c ≤ 0 := by
  intro a
  induction a with
  | nil =>
    intro b c _ _
    cases c with
    | nil => rw [lexCmp]
    | cons z u => rw [lexCmp]; omega
  | cons x s ih =>
    intro b c h1 h2
    cases b with
    | nil => rw [lexCmp] at h1; omega
    | cons y t =>
      cases c with
      | nil => rw [lexCmp] at h2; omega
      | cons z u =>
        rw [lexCmp] at h1 h2 ⊢
        by_cases hxy : x < y
        · rw [if_pos hxy] at h1
          by_cases hyz : y < z
          · rw [if_pos (lt_trans hxy hyz)]
            omega
          · by_cases hzy : z < y
            · rw [if_neg hyz, if_pos hzy] at h2
              omega
            · have hyzeq : y = z := le_antisymm (not_lt.mp hzy) (not_lt.mp hyz)
              subst hyzeq
              rw [if_pos hxy]
              omega
        · by_cases hyx : y < x
          · rw [if_neg hxy, if_pos hyx] at h1
            omega
          · have hxyeq : x = y := le_antisymm (not_lt.mp hyx) (not_lt.mp hxy)
            subst hxyeq
            rw [if_neg hxy, if_neg hyx] at h1
            by_cases hyz : x < z
            · rw [if_pos hyz]
              omega
            · by_cases hzy : z < x
              · rw [if_neg hyz, if_pos hzy] at h2
                omega
              · have : x = z := le_antisymm (not_lt.mp hzy) (not_lt.mp hyz)
                subst this
                rw [if_neg hyz, if_neg hzy] at h2 ⊢
                exact ih t u h1 h2

theorem sortLe_trans {localeCmp : Str → Str → Int}
    (Htr : ∀ x y z, localeCmp x y ≤ 0 → localeCmp y z ≤ 0 →
      localeCmp x z ≤ 0) :
    ∀ a b c : Scored, sortLe localeCmp a b → sortLe localeCmp b c →
      sortLe localeCmp a c := by
  intro a b c h1 h2
  simp only [sortLe, decide_eq_true_eq, jsCompare] at h1 h2 ⊢
  by_cases hab : a.score = b.score
  · rw [if_neg (by omega : ¬a.score ≠ b.score)] at h1
    by_cases hbc : b.score = c.score
    · rw [if_neg (by omega : ¬b.score ≠ c.score)] at h2
      rw [if_neg (by omega : ¬a.score ≠ c.score)]
      exact Htr _ _ _ h1 h2
    · rw [if_pos hbc] at h2
      rw [if_pos (by omega : a.score ≠ c.score)]
      omega
  · rw [if_pos hab] at h1
    by_cases hbc : b.score = c.score
    · rw [if_neg (by omega : ¬b.score ≠ c.score)] at h2
      rw [if_pos (by omega : a.score ≠ c.score)]
      omega
    · rw [if_pos hbc] at h2
      rw [if_pos (by omega : a.score ≠ c.score)]
      omega

theorem sortLe_total {localeCmp : Str → Str → Int}
    (Hto : ∀ x y, localeCmp x y ≤ 0 ∨ localeCmp y x ≤ 0) :
    ∀ a b : Scored, sortLe localeCmp a b || sortLe localeCmp b a := by
  intro a b
  rw [Bool.or_eq_true]
  simp only [sortLe, decide_eq_true_eq, jsCompare]
  by_cases hab : a.score = b.score
  · rw [if_neg (by omega : ¬a.score ≠ b.score),
      if_neg (by omega : ¬b.score ≠ a.score)]
    exact Hto _ _
  · rw [if_pos hab, if_pos (by omega : b.score ≠ a.score)]
    omega

end Search

/-- C3: under a consistent locale comparator (total and transitive in the
non-positive direction), the scored list underlying `filterResults` is
pairwise ordered by non-increasing total score with ties in ascending
case-insensitive title order, and for a non-blank query the returned list
is exactly the items of that scored list (or `[]` for an empty input). -/
theorem filterResults_sorted_C3 (parseDate : Js.Str → Option Int) (now : Int)
    (localeCmp : Js.Str → Js.Str → Int)
    (downloads : List Types.DownloadType) (q : Js.Str)
    (mode : Search.SearchMode)
    (Hq : Js.jsTrim q ≠ [])
    (Htot : ∀ x y, localeCmp x y ≤ 0 ∨ localeCmp y x ≤ 0)
    (Htr : ∀ x y z, localeCmp x y ≤ 0 → localeCmp y z ≤ 0 →
      localeCmp x z ≤ 0) :
    List.Pairwise
      (fun a b : Search.Scored => b.score ≤ a.score ∧ (a.score = b.score →
        localeCmp (a.item.title.map Utils.jsToLower)
          (b.item.title.map Utils.jsToLower) ≤ 0))
      (Search.filterResultsScored parseDate now localeCmp downloads q mode) ∧
    Search.filterResults parseDate now localeCmp downloads q mode =
      (if downloads.length = 0 then []
       else (Search.filterResultsScored parseDate now localeCmp downloads q
          mode).map (fun r => r.item)) := by
  constructor
  · have hs := List.sorted_mergeSort
      (fun a b c => Search.sortLe_trans Htr a b c)
      (fun a b => Search.sortLe_total Htot a b)
      (Search.runItems parseDate now mode
        (TypesMod.extractExactPhrases q).exactPhrases
        (Search.searchTermsOf (TypesMod.extractExactPhrases q).remainingQuery)
        (TypesMod.expandSearchTermsWithSynonyms
          (Search.searchTermsOf
            (TypesMod.extractExactPhrases q).remainingQuery))
        Search.initialCaches downloads)
    refine hs.imp ?_
    intro a b hab
    simp only [Search.sortLe, decide_eq_true_eq, Search.jsCompare] at hab
    by_cases he : a.score = b.score
    · rw [if_neg (by omega : ¬a.score ≠ b.score)] at hab
      exact ⟨le_of_eq he.symm, fun _ => hab⟩
    · rw [if_pos he] at hab
      exact ⟨by omega, fun h => absurd h he⟩
  · unfold Search.filterResults
    rw [if_neg Hq]

/-- C3 witness: a two-record fixture with the code-point comparator — the
scored results for the query `"star"` are pairwise sorted and equal the
returned list. -/
theorem filterResults_sorted_C3_witness :
    List.Pairwise
      (fun a b : Search.Scored => b.score ≤ a.score ∧ (a.score = b.score →
        Search.lexCmp (a.item.title.map Utils.jsToLower)
          (b.item.title.map Utils.jsToLower) ≤ 0))
      (Search.filterResultsScored (fun _ => none) 0 Search.lexCmp
        [{ fileSize := [], uploadDate := [], uris := [],
           title := Js.str "Star Wars" },
         { fileSize := [], uploadDate := [], uris := [],
           title := Js.str "Sea of Stars" }]
        (Js.str "star") Search.SearchMode.any) ∧
    Search.filterResults (fun _ => none) 0 Search.lexCmp
        [{ fileSize := [], uploadDate := [], uris := [],
           title := Js.str "Star Wars" },
         { fileSize := [], uploadDate := [], uris := [],
           title := Js.str "Sea of Stars" }]
        (Js.str "star") Search.SearchMode.any =
      (if ([{ fileSize := [], uploadDate := [], uris := [],
              title := Js.str "Star Wars" },
            { fileSize := [], uploadDate := [], uris := [],
              title := Js.str "Sea of Stars" }] :
          List Types.DownloadType).length = 0 then []
       else (Search.filterResultsScored (fun _ => none) 0 Search.lexCmp
          [{ fileSize := [], uploadDate := [], uris := [],
             title := Js.str "Star Wars" },
           { fileSize := [], uploadDate := [], uris := [],
             title := Js.str "Sea of Stars" }]
          (Js.str "star") Search.SearchMode.any).map (fun r => r.item)) :=
  filterResults_sorted_C3 (fun _ => none) 0 Search.lexCmp
    [{ fileSize := [], uploadDate := [], uris := [],
       title := Js.str "Star Wars" },
     { fileSize := [], uploadDate := [], uris := [],
       title := Js.str "Sea of Stars" }]
    (Js.str "star") Search.SearchMode.any (by decide)
    Search.lexCmp_total Search.lexCmp_trans

namespace LRU

variable {K V : Type} [DecidableEq K]

theorem mapFind_mem {k : K} {v : V} :
    ∀ {l : List (K × V)}, mapFind k l = some v → (k, v) ∈ l := by
  intro l
  induction l with
  | nil => intro h; simp [mapFind] at h
  | cons p t ih =>
    intro h
    rw [mapFind] at h
    by_cases hk : k = p.1
    · rw [if_pos hk] at h
      have : p.2 = v := by injection h
      rw [← this, hk]
      exact List.mem_cons_self _ _
    · rw [if_neg hk] at h
      exact List.mem_cons_of_mem _ (ih h)

theorem mem_mapSet {k : K} {v : V} {q : K × V} :
    ∀ {l : List (K × V)}, q ∈ mapSet k v l → q = (k, v) ∨ q ∈ l := by
  intro l
  induction l with
  | nil =>
    intro h
    rw [mapSet, List.mem_singleton] at h
    exact Or.inl h
  | cons p t ih =>
    intro h
    rw [mapSet] at h
    by_cases hk : k = p.1
    · rw [if_pos hk, List.mem_cons] at h
      rcases h with h1 | h1
      · exact Or.inl h1
      · exact Or.inr (List.mem_cons_of_mem _ h1)
    · rw [if_neg hk, List.mem_cons] at h
      rcases h with h1 | h1
      · exact Or.inr (h1 ▸ List.mem_cons_self _ _)
      · rcases ih h1 with h2 | h2
        · exact Or.inl h2
        · exact Or.inr (List.mem_cons_of_mem _ h2)

theorem mem_mapErase {k : K} {q : K × V} :
    ∀ {l : List (K × V)}, q ∈ mapErase k l → q ∈ l := by
  intro l
  induction l with
  | nil => intro h; simp [mapErase] at h
  | cons p t ih =>
    intro h
    rw [mapErase] at h
    by_cases hk : k = p.1
    · rw [if_pos hk] at h
      exact List.mem_cons_of_mem _ h
    · rw [if_neg hk, List.mem_cons] at h
      rcases h with h1 | h1
      · exact h1 ▸ List.mem_cons_self _ _
      · exact List.mem_cons_of_mem _ (ih h1)

/-- `get` leaves the backing map unchanged. -/
theorem get_cache (c : LRUCache K V) (k : K) : (get c k).2.cache = c.cache := by
  unfold get
  cases mapFind k c.cache with
  | none => rfl
  | some v => rfl

/-- `get` returns exactly the mapped value. -/
theorem get_fst (c : LRUCache K V) (k : K) :
    (get c k).1 = mapFind k c.cache := by
  unfold get
  cases mapFind k c.cache with
  | none => rfl
  | some v => rfl

/-- Entries after a `set` are the new pair or former entries. -/
theorem mem_set_cache {c : LRUCache K V} {k : K} {v : V} {q : K × V}
    (h : q ∈ (set c k v).1.cache) : q = (k, v) ∨ q ∈ c.cache := by
  unfold set at h
  by_cases h1 : (mapFind k c.cache).isSome = true
  · rw [if_pos h1] at h
    exact mem_mapSet h
  · rw [if_neg h1] at h
    by_cases h2 : c.maxSize ≤ c.cache.length
    · rw [if_pos h2] at h
      cases ho : c.accessOrder with
      | nil =>
        rw [ho] at h
        exact mem_mapSet h
      | cons lru rest =>
        rw [ho] at h
        rcases mem_mapSet h with h3 | h3
        · exact Or.inl h3
        · exact Or.inr (mem_mapErase h3)
    · rw [if_neg h2] at h
      exact mem_mapSet h

end LRU

namespace Search

open Js Types

/-- Unfolding equation: weak-cache hit. -/
theorem getSearchData_weakHit {st : CacheState} {item : DownloadType}
    {e : SearchCacheEntry} (hw : LRU.mapFind item st.weak = some e) :
    getSearchData st item = (e, st) := by
  unfold getSearchData
  rw [hw]

/-- Unfolding equation: weak miss, validated persistent hit. -/
theorem getSearchData_persHit {st : CacheState} {item : DownloadType}
    {p : PersistentEntry} (hw : LRU.mapFind item st.weak = none)
    (hp : (LRU.get st.persistent (item.title ++ ':' :: item.uploadDate)).1 =
      some p)
    (hval : p.title = item.title ∧ p.uploadDate = item.uploadDate) :
    getSearchData st item =
      (⟨p.searchText, p.words⟩,
       ⟨LRU.mapSet item ⟨p.searchText, p.words⟩ st.weak,
        (LRU.get st.persistent (item.title ++ ':' :: item.uploadDate)).2⟩) := by
  unfold getSearchData
  rw [hw]
  dsimp only
  rw [hp]
  dsimp only
  rw [if_pos hval]

/-- Unfolding equation: full miss (weak miss and persistent miss or stale
hit): compute and populate both caches. -/
theorem getSearchData_miss {st : CacheState} {item : DownloadType}
    (hw : LRU.mapFind item st.weak = none)
    (hmiss :
      ∀ p, (LRU.get st.persistent (item.title ++ ':' :: item.uploadDate)).1 =
        some p → ¬(p.title = item.title ∧ p.uploadDate = item.uploadDate)) :
    getSearchData st item =
      (computeSearchData item,
       ⟨LRU.mapSet item (computeSearchData item) st.weak,
        (LRU.set
          (LRU.get st.persistent (item.title ++ ':' :: item.uploadDate)).2
          (item.title ++ ':' :: item.uploadDate)
          ⟨(computeSearchData item).searchText, (computeSearchData item).words,
           item.title, item.uploadDate⟩).1⟩) := by
  unfold getSearchData
  rw [hw]
  dsimp only
  cases hp : (LRU.get st.persistent (item.title ++ ':' :: item.uploadDate)).1 with
  | some p =>
    dsimp only
    rw [if_neg (hmiss p hp)]
  | none => rfl

/-- Cache lookup agrees with the canonical computation and preserves the
cache invariants, for records from a key-unique list. -/
theorem getSearchData_pure {downloads : List DownloadType}
    (Hkeys : KeysOk downloads) {st : CacheState}
    (hW : WeakOk st.weak) (hP : PersOk downloads st.persistent)
    {item : DownloadType} (hd : item ∈ downloads) :
    (getSearchData st item).1 = computeSearchData item ∧
    WeakOk (getSearchData st item).2.weak ∧
    PersOk downloads (getSearchData st item).2.persistent := by
  have hgc := LRU.get_cache st.persistent (item.title ++ ':' :: item.uploadDate)
  have hgf := LRU.get_fst st.persistent (item.title ++ ':' :: item.uploadDate)
  cases hw : LRU.mapFind item st.weak with
  | some e =>
    rw [getSearchData_weakHit hw]
    exact ⟨hW (item, e) (LRU.mapFind_mem hw), hW, hP⟩
  | none =>
    by_cases hhit : ∃ p,
        (LRU.get st.persistent (item.title ++ ':' :: item.uploadDate)).1 =
          some p ∧ p.title = item.title ∧ p.uploadDate = item.uploadDate
    · obtain ⟨p, hp, hval⟩ := hhit
      rw [getSearchData_persHit hw hp hval]
      have hpm : (item.title ++ ':' :: item.uploadDate, p) ∈
          st.persistent.cache := LRU.mapFind_mem (by rw [← hgf, hp])
      obtain ⟨d0, hd0, ht, hu, hs, hwords⟩ := hP _ hpm
      have hde : d0 = item :=
        Hkeys d0 hd0 item hd (by rw [← ht, hval.1]) (by rw [← hu, hval.2])
      subst hde
      have hentry : (⟨p.searchText, p.words⟩ : SearchCacheEntry) =
          computeSearchData d0 := by
        rw [hs, hwords]
      refine ⟨hentry, ?_, ?_⟩
      · intro q hq
        rcases LRU.mem_mapSet hq with h1 | h1
        · rw [h1]
          exact hentry
        · exact hW q h1
      · intro q hq
        rw [hgc] at hq
        exact hP q hq
    · rw [getSearchData_miss hw (fun p hp hc => hhit ⟨p, hp, hc⟩)]
      refine ⟨rfl, ?_, ?_⟩
      · intro q hq
        rcases LRU.mem_mapSet hq with h1 | h1
        · rw [h1]
        · exact hW q h1
      · intro q hq
        rcases LRU.mem_set_cache hq with h1 | h1
        · rw [h1]
          exact ⟨item, hd, rfl, rfl, rfl, rfl⟩
        · rw [hgc] at h1
          exact hP q h1

/-- One loop step agrees with the pure decision and preserves the cache
invariants. -/
theorem processItem_pure {downloads : List DownloadType}
    (Hkeys : KeysOk downloads)
    (parseDate : Str → Option Int) (now : Int) (searchMode : SearchMode)
    (exactPhrases searchTerms expanded : List Str) {st : CacheState}
    (hW : WeakOk st.weak) (hP : PersOk downloads st.persistent)
    {item : DownloadType} (hd : item ∈ downloads) :
    (processItem parseDate now searchMode exactPhrases searchTerms expanded
        st item).1 =
      pureProcessItem parseDate now searchMode exactPhrases searchTerms
        expanded item ∧
    WeakOk (processItem parseDate now searchMode exactPhrases searchTerms
      expanded st item).2.weak ∧
    PersOk downloads (processItem parseDate now searchMode exactPhrases
      searchTerms expanded st item).2.persistent := by
  unfold processItem pureProcessItem
  by_cases h1 : item.title = []
  · rw [if_pos h1, if_pos h1]
    exact ⟨rfl, hW, hP⟩
  · rw [if_neg h1, if_neg h1]
    by_cases h2 : (!phraseGate exactPhrases item) = true
    · rw [if_pos h2, if_pos h2]
      exact ⟨rfl, hW, hP⟩
    · rw [if_neg h2, if_neg h2]
      obtain ⟨he, hW2, hP2⟩ := getSearchData_pure Hkeys hW hP hd
      dsimp only
      rw [he]
      by_cases h3 : searchMode = SearchMode.all ∧
        (itemTotal parseDate now searchTerms expanded
          (computeSearchData item) item).2 = false
      · rw [if_pos h3, if_pos h3]
        exact ⟨rfl, hW2, hP2⟩
      · rw [if_neg h3, if_neg h3]
        by_cases h4 : searchMode = SearchMode.any ∧
          (itemTotal parseDate now searchTerms expanded
            (computeSearchData item) item).1 = 0
        · rw [if_pos h4, if_pos h4]
          exact ⟨rfl, hW2, hP2⟩
        · rw [if_neg h4, if_neg h4]
          exact ⟨rfl, hW2, hP2⟩

/-- Under key uniqueness the whole scoring loop is the pure filterMap. -/
theorem runItems_pure {downloads : List DownloadType}
    (Hkeys : KeysOk downloads)
    (parseDate : Str → Option Int) (now : Int) (searchMode : SearchMode)
    (exactPhrases searchTerms expanded : List Str) :
    ∀ (l : List DownloadType), (∀ x ∈ l, x ∈ downloads) →
      ∀ (st : CacheState), WeakOk st.weak → PersOk downloads st.persistent →
      runItems parseDate now searchMode exactPhrases searchTerms expanded
          st l =
        l.filterMap (pureProcessItem parseDate now searchMode exactPhrases
          searchTerms expanded) := by
  intro l
  induction l with
  | nil => intro _ st _ _; rfl
  | cons item rest ih =>
    intro hsub st hW hP
    obtain ⟨he, hW2, hP2⟩ := processItem_pure Hkeys parseDate now searchMode
      exactPhrases searchTerms expanded hW hP
      (hsub item (List.mem_cons_self _ _))
    rw [runItems, List.filterMap_cons]
    have hrec := ih (fun x hx => hsub x (List.mem_cons_of_mem _ hx)) _ hW2 hP2
    cases hc : pureProcessItem parseDate now searchMode exactPhrases
        searchTerms expanded item with
    | none =>
      rw [hc] at he
      rw [he, hrec]
    | some sc =>
      rw [hc] at he
      rw [he, hrec]

end Search

namespace Search

open Js Types

theorem originalLoop_fst (e : SearchCacheEntry) :
    ∀ (ts : List Str) (n : Nat) (b : Bool),
      (ts.foldl (fun acc term =>
        let s := scoreForTerm e.searchText e.words term
        (acc.1 + s, acc.2 && decide (¬s = 0))) (n, b)).1 =
      n + (ts.map (scoreForTerm e.searchText e.words)).sum := by
  intro ts
  induction ts with
  | nil => intro n b; simp
  | cons t r ih =>
    intro n b
    rw [List.foldl_cons, List.map_cons, List.sum_cons]
    rw [ih]
    omega

theorem originalLoop_snd (e : SearchCacheEntry) :
    ∀ (ts : List Str) (n : Nat) (b : Bool),
      (ts.foldl (fun acc term =>
        let s := scoreForTerm e.searchText e.words term
        (acc.1 + s, acc.2 && decide (¬s = 0))) (n, b)).2 =
      (b && ts.all (fun t => decide (¬scoreForTerm e.searchText e.words t = 0))) := by
  intro ts
  induction ts with
  | nil => intro n b; simp
  | cons t r ih =>
    intro n b
    rw [List.foldl_cons, List.all_cons]
    rw [ih]
    cases b <;> cases hb : decide (¬scoreForTerm e.searchText e.words t = 0) <;>
      simp [hb]

theorem synonymLoop_eq (e : SearchCacheEntry) :
    ∀ (syn : List Str) (total : Nat),
      synonymLoop e syn total =
        total + (syn.map
          (fun t => 7 * scoreForTerm e.searchText e.words t / 10)).sum := by
  intro syn
  induction syn with
  | nil => intro total; simp [synonymLoop]
  | cons t r ih =>
    intro total
    rw [List.map_cons, List.sum_cons]
    rw [show synonymLoop e (t :: r) total = synonymLoop e r
        (if scoreForTerm e.searchText e.words t > 0
         then total + 7 * scoreForTerm e.searchText e.words t / 10
         else total) from rfl]
    rw [ih]
    by_cases hs : scoreForTerm e.searchText e.words t > 0
    · rw [if_pos hs]
      omega
    · rw [if_neg hs]
      have h0 : scoreForTerm e.searchText e.words t = 0 := by omega
      rw [h0]
      norm_num

/-- The `allMatched` flag equals the all-terms-nonzero predicate. -/
theorem itemTotal_snd (parseDate : Str → Option Int) (now : Int)
    (ts ex : List Str) (e : SearchCacheEntry) (item : DownloadType) :
    (itemTotal parseDate now ts ex e item).2 =
      ts.all (fun t => decide (¬scoreForTerm e.searchText e.words t = 0)) := by
  unfold itemTotal originalLoop
  dsimp only
  rw [originalLoop_snd]
  rw [Bool.true_and]

/-- The computed total equals the claim-side total. -/
theorem itemTotal_fst (parseDate : Str → Option Int) (now : Int)
    (ts ex : List Str) (item : DownloadType) :
    (itemTotal parseDate now ts ex (computeSearchData item) item).1 =
      specTotalScore parseDate now ts ex item := by
  unfold itemTotal originalLoop specTotalScore
  dsimp only
  rw [synonymLoop_eq, originalLoop_fst]
  rw [Nat.zero_add]

/-- A kept record is the record the `some` result carries. -/
theorem pureProcessItem_item {parseDate : Str → Option Int} {now : Int}
    {searchMode : SearchMode} {phr ts ex : List Str} {e : DownloadType}
    {sc : Scored}
    (h : pureProcessItem parseDate now searchMode phr ts ex e = some sc) :
    sc.item = e := by
  unfold pureProcessItem at h
  by_cases h1 : e.title = []
  · rw [if_pos h1] at h
    exact absurd h (by simp)
  · rw [if_neg h1] at h
    by_cases h2 : (!phraseGate phr e) = true
    · rw [if_pos h2] at h
      exact absurd h (by simp)
    · rw [if_neg h2] at h
      dsimp only at h
      by_cases h3 : searchMode = SearchMode.all ∧
          (itemTotal parseDate now ts ex (computeSearchData e) e).2 = false
      · rw [if_pos h3] at h
        exact absurd h (by simp)
      · rw [if_neg h3] at h
        by_cases h4 : searchMode = SearchMode.any ∧
            (itemTotal parseDate now ts ex (computeSearchData e) e).1 = 0
        · rw [if_pos h4] at h
          exact absurd h (by simp)
        · rw [if_neg h4] at h
          have := Option.some.inj h
          rw [← this]

/-- Membership in `filterResults`, for a non-blank query and a key-unique
record list, is decided per record by the pure decision function. -/
theorem mem_filterResults_iff (parseDate : Str → Option Int) (now : Int)
    (localeCmp : Str → Str → Int) {downloads : List DownloadType}
    (q : Str) (mode : SearchMode) {d : DownloadType}
    (Hq : jsTrim q ≠ []) (Hkeys : KeysOk downloads) (Hd : d ∈ downloads) :
    (d ∈ filterResults parseDate now localeCmp downloads q mode ↔
      ¬(pureProcessItem parseDate now mode
          (TypesMod.extractExactPhrases q).exactPhrases
          (searchTermsOf (TypesMod.extractExactPhrases q).remainingQuery)
          (TypesMod.expandSearchTermsWithSynonyms
            (searchTermsOf (TypesMod.extractExactPhrases q).remainingQuery)) d
        = none)) := by
  have h0 : downloads.length ≠ 0 := by
    intro h
    rw [List.length_eq_zero] at h
    rw [h] at Hd
    simp at Hd
  unfold filterResults
  rw [if_neg Hq, if_neg h0]
  unfold filterResultsScored
  dsimp only
  rw [runItems_pure Hkeys parseDate now mode _ _ _ downloads (fun x hx => hx)
    initialCaches (fun q hq => by simp [initialCaches] at hq)
    (fun q hq => by simp [initialCaches, LRU.LRUCache.cache] at hq)]
  constructor
  · intro hmem hnone
    obtain ⟨sc, hsc, hitem⟩ := List.mem_map.mp hmem
    rw [List.mem_mergeSort] at hsc
    obtain ⟨e, he, hpe⟩ := List.mem_filterMap.mp hsc
    have : sc.item = e := pureProcessItem_item hpe
    rw [this] at hitem
    rw [hitem] at hpe
    rw [hpe] at hnone
    exact absurd hnone (by simp)
  · intro hne
    cases hc : pureProcessItem parseDate now mode
        (TypesMod.extractExactPhrases q).exactPhrases
        (searchTermsOf (TypesMod.extractExactPhrases q).remainingQuery)
        (TypesMod.expandSearchTermsWithSynonyms
          (searchTermsOf (TypesMod.extractExactPhrases q).remainingQuery)) d with
    | none => exact absurd hc hne
    | some sc =>
      refine List.mem_map.mpr ⟨sc, ?_, pureProcessItem_item hc⟩
      rw [List.mem_mergeSort]
      exact List.mem_filterMap.mpr ⟨d, Hd, hc⟩

end Search

namespace Search

open Js Utils Types

/-- C2 (amended): for a non-blank query and a record list whose
`(title, uploadDate)` cache keys identify records uniquely, a record with
a non-empty title that passes the exact-phrase gate is dropped by
`filterResults` in mode `all` exactly when some original (post-stopword)
search term scores zero against it, and in mode `any` exactly when its
total score — original-term scores plus `floor(0.7 · score)` for each
synonym term not among the originals, plus the recency bonus when the sum
is positive — is zero.  Without the key-uniqueness hypothesis the claim
fails: the persistent cache can serve one record another record's search
text (see the counterexample). -/
theorem filterResults_drop_C2 (parseDate : Str → Option Int) (now : Int)
    (localeCmp : Str → Str → Int) (downloads : List DownloadType)
    (q : Str) (mode : SearchMode) (d : DownloadType) (ts ex : List Str)
    (Hts : ts = searchTermsOf (TypesMod.extractExactPhrases q).remainingQuery)
    (Hex : ex = TypesMod.expandSearchTermsWithSynonyms ts)
    (Hq : jsTrim q ≠ []) (Hkeys : KeysOk downloads) (Hd : d ∈ downloads)
    (Ht : d.title ≠ [])
    (Hg : phraseGate (TypesMod.extractExactPhrases q).exactPhrases d = true) :
    (mode = SearchMode.all →
      (d ∉ filterResults parseDate now localeCmp downloads q mode ↔
        ∃ t ∈ ts, scoreForTerm (computeSearchData d).searchText
          (computeSearchData d).words t = 0)) ∧
    (mode = SearchMode.any →
      (d ∉ filterResults parseDate now localeCmp downloads q mode ↔
        specTotalScore parseDate now ts ex d = 0)) := by
  have hmem := mem_filterResults_iff parseDate now localeCmp q mode Hq Hkeys Hd
  rw [← Hts, ← Hex] at hmem
  have hnot : (d ∉ filterResults parseDate now localeCmp downloads q mode) ↔
      pureProcessItem parseDate now mode
        (TypesMod.extractExactPhrases q).exactPhrases ts ex d = none := by
    rw [hmem]
    exact not_not
  have Hg2 : ¬((!phraseGate (TypesMod.extractExactPhrases q).exactPhrases d)
      = true) := by
    rw [Hg]
    simp
  have hflag := itemTotal_snd parseDate now ts ex (computeSearchData d) d
  have htot := itemTotal_fst parseDate now ts ex d
  constructor
  · intro hmode
    subst hmode
    rw [hnot]
    unfold pureProcessItem
    rw [if_neg Ht, if_neg Hg2]
    dsimp only
    by_cases h2 : (itemTotal parseDate now ts ex (computeSearchData d) d).2
        = false
    · have hcond : SearchMode.all = SearchMode.all ∧
          (itemTotal parseDate now ts ex (computeSearchData d) d).2 = false :=
        ⟨rfl, h2⟩
      rw [if_pos hcond]
      constructor
      · intro _
        rw [hflag, List.all_eq_false] at h2
        obtain ⟨t, htm, htf⟩ := h2
        refine ⟨t, htm, ?_⟩
        simpa using htf
      · intro _
        rfl
    · rw [if_neg (fun hc : SearchMode.all = SearchMode.all ∧
          (itemTotal parseDate now ts ex (computeSearchData d) d).2 = false =>
        h2 hc.2)]
      rw [if_neg (fun hc : SearchMode.all = SearchMode.any ∧
          (itemTotal parseDate now ts ex (computeSearchData d) d).1 = 0 =>
        absurd hc.1 (by decide))]
      constructor
      · intro hsome
        exact absurd hsome (by simp)
      · rintro ⟨t, htm, ht0⟩
        refine absurd ?_ h2
        rw [hflag, List.all_eq_false]
        exact ⟨t, htm, by simp [ht0]⟩
  · intro hmode
    subst hmode
    rw [hnot]
    unfold pureProcessItem
    rw [if_neg Ht, if_neg Hg2]
    dsimp only
    rw [if_neg (fun hc : SearchMode.any = SearchMode.all ∧
        (itemTotal parseDate now ts ex (computeSearchData d) d).2 = false =>
      absurd hc.1 (by decide))]
    by_cases h4 : (itemTotal parseDate now ts ex (computeSearchData d) d).1 = 0
    · have hcond : SearchMode.any = SearchMode.any ∧
          (itemTotal parseDate now ts ex (computeSearchData d) d).1 = 0 :=
        ⟨rfl, h4⟩
      rw [if_pos hcond]
      constructor
      · intro _
        rw [← htot]
        exact h4
      · intro _
        rfl
    · rw [if_neg (fun hc : SearchMode.any = SearchMode.any ∧
          (itemTotal parseDate now ts ex (computeSearchData d) d).1 = 0 =>
        h4 hc.2)]
      constructor
      · intro hsome
        exact absurd hsome (by simp)
      · intro h0
        refine absurd ?_ h4
        rw [htot]
        exact h0

end Search

set_option maxRecDepth 8192 in
/-- C2 witness: the amended theorem applied to the single-record fixture
`c2B` with query `"beta"` in match mode `any`; all hypotheses hold by
computation. -/
theorem filterResults_drop_C2_witness :
    Js.jsTrim (Js.str "beta") ≠ [] ∧
    ((c2B ∉ Search.filterResults (fun _ => none) 0 Search.lexCmp [c2B]
        (Js.str "beta") Search.SearchMode.any) ↔
      Search.specTotalScore (fun _ => none) 0 c2Terms c2Expanded c2B = 0) :=
  ⟨by decide,
   (Search.filterResults_drop_C2 (fun _ => none) 0 Search.lexCmp [c2B]
      (Js.str "beta") Search.SearchMode.any c2B c2Terms c2Expanded rfl rfl
      (by decide)
      (by intro x hx y hy h1 h2; rw [List.mem_singleton] at hx hy;
          rw [hx, hy])
      (by decide) (by decide) (by decide)).2 rfl⟩

set_option maxRecDepth 16384 in
set_option maxHeartbeats 1000000 in
/-- C2 counterexample: the frozen claim's drop rule fails without key
uniqueness — `c2A` and `c2B` share the persistent-cache key `"t:d"`, so on
query `"beta"` in mode `any` the record `c2B` is served `c2A`'s cached
search text `" t alpha "`, scores zero, and is dropped, although its own
total score is 100. -/
theorem filterResults_drop_C2_counterexample :
    (c2B ∉ Search.filterResults (fun _ => none) 0 Search.lexCmp [c2A, c2B]
        (Js.str "beta") Search.SearchMode.any) ∧
    Search.specTotalScore (fun _ => none) 0 c2Terms c2Expanded c2B = 100 := by
  have hrun : Search.runItems (fun _ => none) 0 Search.SearchMode.any
      (TypesMod.extractExactPhrases (Js.str "beta")).exactPhrases
      (Search.searchTermsOf
        (TypesMod.extractExactPhrases (Js.str "beta")).remainingQuery)
      (TypesMod.expandSearchTermsWithSynonyms (Search.searchTermsOf
        (TypesMod.extractExactPhrases (Js.str "beta")).remainingQuery))
      Search.initialCaches [c2A, c2B] = [] := by decide
  have hempty : Search.filterResults (fun _ => none) 0 Search.lexCmp
      [c2A, c2B] (Js.str "beta") Search.SearchMode.any = [] := by
    unfold Search.filterResults
    rw [if_neg (show ¬(Js.jsTrim (Js.str "beta") = []) from by decide)]
    rw [if_neg (show ¬(([c2A, c2B] : List Types.DownloadType).length = 0)
      from by decide)]
    unfold Search.filterResultsScored
    dsimp only
    rw [hrun]
    simp
  constructor
  · rw [hempty]
    simp
  · decide

namespace Loader

open Js

/-- Every branch of the response pipeline reports that the fetch was
performed. -/
theorem fetchPhase_fetched (now : Int) (url : Str)
    (fetchRes : Option FetchResult) (st : LoaderState) :
    (fetchPhase now url fetchRes st).2.fetched = true := by
  unfold fetchPhase
  cases fetchRes with
  | none => rfl
  | some res =>
    dsimp only
    by_cases hok : (!res.ok) = true
    · rw [if_pos hok]
    · rw [if_neg hok]
      by_cases htr : ((str "<").isPrefixOf (jsTrim res.text)) = true
      · rw [if_pos htr]
      · rw [if_neg htr]
        cases hp : res.parsed with
        | none => rfl
        | some json =>
          dsimp only
          by_cases hv : (!isValidGogData json) = true
          · rw [if_pos hv]
          · rw [if_neg hv]

/-- C8 (amended): for a URL that is neither marked processed nor present
in the URL response cache and that has a nonzero failure timestamp `t`
recorded, a load attempt at time `now` with `now - t` inside the
10-minute `FAILED_URL_RETRY_MS` window performs no fetch, invokes no
callback and leaves the state unchanged; once the window has elapsed, a
retry fetch is attempted — provided neither the URL nor the source's
name is in `recentlyRemovedUrls` (without that proviso the retry half of
the frozen claim fails, see the counterexample). -/
theorem loader_backoff_C8 (now : Int) (url : Str) (name : Option Str)
    (fetchRes : Option FetchResult) (st : LoaderState) (t : Int)
    (Hp : st.processedUrlLoads.contains url = false)
    (Hc : LRU.mapFind url st.urlCache = none)
    (Hf : LRU.mapFind url st.failedUrlAt = some t) (Ht : t ≠ 0) :
    (now - t < FAILED_URL_RETRY_MS →
      loadSingleSource now url name fetchRes st =
        (st, ⟨false, none, false⟩)) ∧
    (FAILED_URL_RETRY_MS ≤ now - t →
      st.recentlyRemovedUrls.contains url = false →
      st.recentlyRemovedUrls.contains (Types.jsOr name []) = false →
      (loadSingleSource now url name fetchRes st).2.fetched = true) := by
  constructor
  · intro hlt
    unfold loadSingleSource
    rw [if_neg (by rw [Hp]; simp)]
    rw [Hc]
    dsimp only
    rw [if_pos (show failedRecently (LRU.mapFind url st.failedUrlAt) now
        = true from by
      rw [Hf]
      unfold failedRecently
      simp only [Bool.and_eq_true, decide_eq_true_eq]
      exact ⟨Ht, hlt⟩)]
  · intro hge hr1 hr2
    unfold loadSingleSource
    rw [if_neg (by rw [Hp]; simp)]
    rw [Hc]
    dsimp only
    rw [if_neg (show ¬(failedRecently (LRU.mapFind url st.failedUrlAt) now
        = true) from by
      rw [Hf]
      unfold failedRecently
      simp only [Bool.and_eq_true, decide_eq_true_eq, not_and]
      intro _
      exact not_lt.mpr hge)]
    rw [if_neg (by rw [hr1, hr2]; simp)]
    exact fetchPhase_fetched now url fetchRes st

end Loader

/-- C8 witness: a load attempt at time 10 for URL `"u"`, whose failure was
recorded at time 5 — inside the window — with the URL neither processed
nor cached: no fetch, no callback, state unchanged. -/
theorem loader_backoff_C8_witness :
    Loader.loadSingleSource 10 (Js.str "u") none none c8St2 =
      (c8St2, { fetched := false, added := none, errored := false }) :=
  (Loader.loader_backoff_C8 10 (Js.str "u") none none c8St2 5 rfl rfl rfl
    (by decide)).1 (by decide)

/-- C8 counterexample: the retry half of the frozen claim fails without
the removed-set proviso — URL `"u"` has a failure recorded at time 5 and
the window has elapsed at time 600005, the URL is neither processed nor
cached, yet no retry fetch happens because `"u"` is in
`recentlyRemovedUrls`. -/
theorem loader_backoff_C8_counterexample :
    LRU.mapFind (Js.str "u") c8St.failedUrlAt = some 5 ∧
    Loader.FAILED_URL_RETRY_MS ≤ (600005 : Int) - 5 ∧
    c8St.processedUrlLoads.contains (Js.str "u") = false ∧
    LRU.mapFind (Js.str "u") c8St.urlCache = none ∧
    (Loader.loadSingleSource 600005 (Js.str "u") none
        (some ⟨true, [], some Loader.JsonVal.null⟩) c8St).2.fetched
      = false :=
  ⟨rfl, by decide, rfl, rfl, rfl⟩

namespace DataStore

open Js Types

/-! Lemmas about the data-store operations for the catalog invariant. -/

theorem prunedOf_name (data : GogData) (u : Option Str) :
    (prunedOf data u).name = data.name := by
  unfold prunedOf tagDownloads
  dsimp only
  by_cases h : urlTruthy u = true
  · rw [if_pos h]
    rfl
  · rw [if_neg h]
    rfl

theorem normalizeGogData_downloads_le (src : GogData) :
    (normalizeGogData src).downloads.length ≤ MAX_DOWNLOADS_PER_SOURCE := by
  unfold normalizeGogData
  dsimp only
  rw [List.length_map, List.length_take]
  exact min_le_left _ _

theorem prunedOf_downloads_le (data : GogData) (u : Option Str) :
    (prunedOf data u).downloads.length ≤ MAX_DOWNLOADS_PER_SOURCE := by
  unfold prunedOf tagDownloads
  dsimp only
  rw [List.length_map]
  by_cases h : urlTruthy u = true
  · rw [if_pos h]
    unfold resanitizeDownloads
    dsimp only
    rw [List.length_map]
    exact normalizeGogData_downloads_le data
  · rw [if_neg h]
    exact normalizeGogData_downloads_le data

theorem replaceCap_length (g : GogData) (l : List GogData) :
    (replaceCap g l).length ≤ MAX_GOG_SOURCES := by
  unfold replaceCap
  dsimp only
  by_cases h : (l.filter (fun x => decide (¬x.name = g.name)) ++ [g]).length
      > MAX_GOG_SOURCES
  · rw [if_pos h]
    rw [List.length_drop]
    omega
  · rw [if_neg h]
    omega

theorem replaceCap_pairwise (g : GogData) (l : List GogData)
    (h : l.Pairwise (fun a b => a.name ≠ b.name)) :
    (replaceCap g l).Pairwise (fun a b => a.name ≠ b.name) := by
  have h0 : (l.filter (fun x => decide (¬x.name = g.name)) ++ [g]).Pairwise
      (fun a b => a.name ≠ b.name) := by
    rw [List.pairwise_append]
    refine ⟨List.Pairwise.filter _ h, List.pairwise_singleton _ _, ?_⟩
    intro a ha b hb
    rw [List.mem_singleton] at hb
    rw [List.mem_filter] at ha
    have h2 := ha.2
    rw [decide_eq_true_eq] at h2
    rw [hb]
    exact h2
  unfold replaceCap
  dsimp only
  by_cases hlen : (l.filter (fun x => decide (¬x.name = g.name)) ++ [g]).length
      > MAX_GOG_SOURCES
  · rw [if_pos hlen]
    exact List.Pairwise.sublist (List.drop_sublist _ _) h0
  · rw [if_neg hlen]
    exact h0

theorem replaceCap_mem {g : GogData} {l : List GogData} {x : GogData}
    (hx : x ∈ replaceCap g l) : x ∈ l ∨ x = g := by
  unfold replaceCap at hx
  dsimp only at hx
  by_cases hlen : (l.filter (fun y => decide (¬y.name = g.name)) ++ [g]).length
      > MAX_GOG_SOURCES
  · rw [if_pos hlen] at hx
    have hm := List.mem_of_mem_drop hx
    rw [List.mem_append, List.mem_singleton] at hm
    rcases hm with h1 | h2
    · exact Or.inl (List.mem_filter.mp h1).1
    · exact Or.inr h2
  · rw [if_neg hlen] at hx
    rw [List.mem_append, List.mem_singleton] at hx
    rcases hx with h1 | h2
    · exact Or.inl (List.mem_filter.mp h1).1
    · exact Or.inr h2

theorem applyOp_inv (st : StoreState) (op : StoreOp) (h : Inv st) :
    Inv (applyOp st op) := by
  cases op with
  | add data sourceUrl nowIso =>
    show Inv (addGogData data sourceUrl nowIso st)
    unfold addGogData
    by_cases hp : st.uploadInProgress.contains data.name = true
    · rw [if_pos hp]
      exact h
    · rw [if_neg hp]
      dsimp only
      refine ⟨replaceCap_length _ _, replaceCap_pairwise _ _ h.2.1, ?_⟩
      intro g hg
      rcases replaceCap_mem hg with hmem | hEq
      · exact h.2.2 g hmem
      · rw [hEq]
        exact prunedOf_downloads_le data sourceUrl
  | load data =>
    show Inv (loadSavedSource data st)
    unfold loadSavedSource
    dsimp only
    refine ⟨replaceCap_length _ _, replaceCap_pairwise _ _ h.2.1, ?_⟩
    intro g hg
    rcases replaceCap_mem hg with hmem | hEq
    · exact h.2.2 g hmem
    · rw [hEq]
      unfold tagDownloads
      dsimp only
      rw [List.length_map]
      exact normalizeGogData_downloads_le data
  | remove n =>
    show Inv (removeSource n st)
    unfold removeSource
    refine ⟨le_trans (List.length_filter_le _ _) h.1,
      List.Pairwise.sublist (List.filter_sublist _) h.2.1, ?_⟩
    intro g hg
    rw [List.mem_filter] at hg
    exact h.2.2 g hg.1
  | finish n id =>
    exact h

theorem initial_inv : Inv initialStoreState := by
  refine ⟨?_, List.Pairwise.nil, ?_⟩
  · simp [initialStoreState, MAX_GOG_SOURCES]
  · intro g hg
    simp [initialStoreState] at hg

theorem runOps_inv_aux :
    ∀ (ops : List StoreOp) (st : StoreState), Inv st →
      Inv (ops.foldl applyOp st) := by
  intro ops
  induction ops with
  | nil =>
    intro st h
    exact h
  | cons op rest ih =>
    intro st h
    rw [List.foldl_cons]
    exact ih (applyOp st op) (applyOp_inv st op h)

theorem map_name_filter (N : Str) (l : List GogData) :
    (l.filter (fun x => decide (¬x.name = N))).map GogData.name =
      (l.map GogData.name).filter (fun n => decide (¬n = N)) := by
  induction l with
  | nil => rfl
  | cons a t ih =>
    by_cases h : a.name = N
    · rw [List.filter_cons, List.map_cons, List.filter_cons]
      rw [if_neg (by simp [h]), if_neg (by simp [h])]
      exact ih
    · rw [List.filter_cons, List.map_cons, List.filter_cons]
      rw [if_pos (by simp [h]), if_pos (by simp [h])]
      rw [List.map_cons, ih]

theorem replaceCap_names_suffix (g : GogData) (l : List GogData) :
    ((replaceCap g l).map GogData.name).IsSuffix
      (((l.map GogData.name).filter (fun n => decide (¬n = g.name))) ++
        [g.name]) := by
  have hmap : (l.filter (fun x => decide (¬x.name = g.name)) ++ [g]).map
      GogData.name =
      ((l.map GogData.name).filter (fun n => decide (¬n = g.name))) ++
        [g.name] := by
    rw [List.map_append, map_name_filter]
    rfl
  unfold replaceCap
  dsimp only
  by_cases hlen : (l.filter (fun x => decide (¬x.name = g.name)) ++ [g]).length
      > MAX_GOG_SOURCES
  · rw [if_pos hlen]
    rw [List.map_drop, hmap]
    exact List.drop_suffix _ _
  · rw [if_neg hlen]
    rw [hmap]

/-- C9: every store state reachable by data-store operations
(`addGogData`, `loadSavedSource`, `removeSource`, upload completion)
from the initial state keeps at most 50 catalogs with pairwise-distinct
names, each holding at most 200 download records; moreover an unblocked
`addGogData` replaces any same-named catalog (the stored name list is a
suffix of the old names minus the incoming name, with the incoming name
appended — oldest entries dropped on overflow). -/
theorem dataStore_invariants_C9 :
    (∀ ops : List StoreOp, Inv (runOps ops)) ∧
    (∀ (data : GogData) (sourceUrl : Option Str) (nowIso : Str)
        (st : StoreState),
      st.uploadInProgress.contains data.name = false →
      ((addGogData data sourceUrl nowIso st).gogData.map
          GogData.name).IsSuffix
        (((st.gogData.map GogData.name).filter
            (fun n => decide (¬n = data.name))) ++ [data.name])) := by
  constructor
  · intro ops
    exact runOps_inv_aux ops initialStoreState initial_inv
  · intro data sourceUrl nowIso st hp
    unfold addGogData
    rw [if_neg (by rw [hp]; simp)]
    dsimp only
    have hs := replaceCap_names_suffix (prunedOf data sourceUrl) st.gogData
    rw [prunedOf_name] at hs
    exact hs

end DataStore

/-- C9 witness: no operations yield a state satisfying the invariant, and
adding the catalog `"g"` to the initial store keeps exactly the name list
`["g"]`, a suffix of the claimed form. -/
theorem dataStore_C9_witness :
    DataStore.Inv (DataStore.runOps []) ∧
    ((DataStore.addGogData ⟨Js.str "g", []⟩ none []
        DataStore.initialStoreState).gogData.map
      Types.GogData.name).IsSuffix
      (((DataStore.initialStoreState.gogData.map Types.GogData.name).filter
          (fun n => decide (¬n = Js.str "g"))) ++ [Js.str "g"]) :=
  ⟨DataStore.dataStore_invariants_C9.1 [],
   DataStore.dataStore_invariants_C9.2 ⟨Js.str "g", []⟩ none []
     DataStore.initialStoreState rfl⟩
